import Mathlib

/-!
Verification development for the gnuSMV model checker core.

This file gives a shallow embedding, in Lean 4, of the parts of the source
that the specification's claims talk about:

* the witness expression evaluator (src/src/expr/expr_eval.cc),
* the encoding families (src/src/enc/enc.cc),
* the `TimeFrame` witness store (src/src/witness/witness.cc),
* the digit-level bitwise paths of the boolean compiler (src/src/model/compiler.cc),
* the compiler cache, hooks and MUX post-processing (src/src/model/compiler/internals.cc),
* the backward BMC reachability strategy (bmc/backward.cc).

Machine integers (the source's `value_t`, an unsigned 64-bit integer) are
modelled as `Nat` with explicit `% 2 ^ 64` where wrap-around can occur.
Fallible operations (C assertions, out-of-bounds reads) are modelled with
`Option`.  ADD nodes are modelled syntactically where their identity matters
and by their evaluated constants where only values matter, matching the
contract of the external ADD package (spec section 6).
-/

/-! ## Witness expression evaluator (src/src/expr/expr_eval.cc)

The evaluator walks a formula bottom-up keeping a value stack; variables are
resolved through the witness, numeric literals denote themselves.  Each
`walk_<op>_postorder` pops the operand values and pushes the computed result.
The embedding represents the stack discipline directly by recursion: the
value pushed for a node is the function of the values of its children that
the corresponding `walk_<op>_postorder` computes.  `value_t` is unsigned;
logical `!` maps nonzero to 0 and 0 to 1, comparisons yield 0/1.
-/

namespace Evaluator

/-- Two to the 64, the modulus of the source's `value_t`. -/
def wordMod : Nat := 2 ^ 64

/-- C logical negation on an unsigned value: `!v`. -/
def cnot (v : Nat) : Bool := v = 0

/-- Booleans as `value_t` 0/1, as the C comparison operators produce. -/
def b2v (b : Bool) : Nat := if b then 1 else 0

/-- Expressions handled by the witness evaluator; leaves are numeric
constants and variables, `enext`/`eprev` adjust the time stack. -/
inductive EvExpr where
  | econst (v : Nat)
  | evar (n : Nat)
  | enext (a : EvExpr)
  | eprev (a : EvExpr)
  | enot (a : EvExpr)
  | eadd (a b : EvExpr)
  | esub (a b : EvExpr)
  | emul (a b : EvExpr)
  | ediv (a b : EvExpr)
  | emod (a b : EvExpr)
  | eand (a b : EvExpr)
  | eor (a b : EvExpr)
  | exor (a b : EvExpr)
  | elsh (a b : EvExpr)
  | ersh (a b : EvExpr)
  | eeq (a b : EvExpr)
  | ene (a b : EvExpr)
  | elt (a b : EvExpr)
  | ele (a b : EvExpr)
  | egt (a b : EvExpr)
  | ege (a b : EvExpr)
  | eite (c a b : EvExpr)
  deriving DecidableEq, Repr

/-- A witness lookup: `(ctx, variable, time) -> value`, `none` when the
frame holds no value for the key (the source then aborts). -/
def WitnessFun : Type := Nat → Nat → Nat → Option Nat

/-- `Evaluator::process(witness, ctx, body, time)`, translated walker case by
walker case from src/src/expr/expr_eval.cc.  Note two translations taken
verbatim from the source: `walk_mul_postorder` computes `lhs / rhs`
(lines 174-181) and `walk_rshift_postorder` computes `lhs << rhs`
(lines 285-292). -/
def eval (w : WitnessFun) (ctx : Nat) : EvExpr → Nat → Option Nat
  | .econst v, _ => some v
  | .evar n, t => w ctx n t
  | .enext a, t => eval w ctx a (t + 1)
  | .eprev a, t => eval w ctx a (t - 1)
  | .enot a, t => do
      let l ← eval w ctx a t
      some (b2v (cnot l))
  | .eadd a b, t => do
      let l ← eval w ctx a t
      let r ← eval w ctx b t
      some ((l + r) % wordMod)
  | .esub a b, t => do
      let l ← eval w ctx a t
      let r ← eval w ctx b t
      some ((l + (wordMod - r % wordMod)) % wordMod)
  | .emul a b, t => do
      let l ← eval w ctx a t
      let r ← eval w ctx b t
      some (l / r)
  | .ediv a b, t => do
      let l ← eval w ctx a t
      let r ← eval w ctx b t
      some (l / r)
  | .emod a b, t => do
      let l ← eval w ctx a t
      let r ← eval w ctx b t
      some (l % r)
  | .eand a b, t => do
      let l ← eval w ctx a t
      let r ← eval w ctx b t
      some (Nat.land l r)
  | .eor a b, t => do
      let l ← eval w ctx a t
      let r ← eval w ctx b t
      some (Nat.lor l r)
  | .exor a b, t => do
      let l ← eval w ctx a t
      let r ← eval w ctx b t
      some (Nat.xor l r)
  | .elsh a b, t => do
      let l ← eval w ctx a t
      let r ← eval w ctx b t
      some ((l <<< r) % wordMod)
  | .ersh a b, t => do
      let l ← eval w ctx a t
      let r ← eval w ctx b t
      some ((l <<< r) % wordMod)
  | .eeq a b, t => do
      let l ← eval w ctx a t
      let r ← eval w ctx b t
      some (b2v (l = r))
  | .ene a b, t => do
      let l ← eval w ctx a t
      let r ← eval w ctx b t
      some (b2v (l ≠ r))
  | .elt a b, t => do
      let l ← eval w ctx a t
      let r ← eval w ctx b t
      some (b2v (l < r))
  | .ele a b, t => do
      let l ← eval w ctx a t
      let r ← eval w ctx b t
      some (b2v (l ≤ r))
  | .egt a b, t => do
      let l ← eval w ctx a t
      let r ← eval w ctx b t
      some (b2v (r < l))
  | .ege a b, t => do
      let l ← eval w ctx a t
      let r ← eval w ctx b t
      some (b2v (r ≤ l))
  | .eite c a b, t => do
      let cv ← eval w ctx c t
      let l ← eval w ctx a t
      let r ← eval w ctx b t
      some (if cv ≠ 0 then l else r)

/-- A trivial witness assigning no values; constants suffice for the
claims about the arithmetic walkers. -/
def emptyWitness : WitnessFun := fun _ _ _ => none

end Evaluator

/-! ## Encoding families (src/src/enc/enc.cc)

An ADD digit is represented by the constant it evaluates to under a SAT
assignment: `AlgebraicEncoding::expr` first applies `ADD::Eval(assignment)`
to each digit DD and then only ever uses the resulting constant.  The
embedding therefore works on the list of evaluated digit constants in
DDVector index order (`f_dv[0], f_dv[1], ...`).
-/

namespace Enc

/-- The loop body of `AlgebraicEncoding::expr` (src/src/enc/enc.cc lines
145-154): `res += digit; if (++i < width) res *= 0x10; else break;`.
The accumulator multiplies by 16 between digits, starting from digit 0. -/
def exprAlgLoop : Nat → List Nat → Nat
  | res, [] => res
  | res, d :: rest =>
    match rest with
    | [] => res + d
    | _ :: _ => exprAlgLoop ((res + d) * 16) rest

/-- `AlgebraicEncoding::expr` on the evaluated digit constants; the source
reads `f_dv[0]` first, so the list is in DDVector index order.  The empty
list corresponds to a width-0 encoding, which the constructor rules out. -/
def exprAlg (digits : List Nat) : Nat := exprAlgLoop 0 digits

/-- The value the claim asserts for `expr`: the base-16 little-endian sum
`d_0 * 16^0 + d_1 * 16^1 + ...` with digit 0 least significant.  (Written
from the spec's words, for comparison against `exprAlg`.) -/
def littleEndianValue (digits : List Nat) : Nat :=
  digits.foldr (fun d acc => d + 16 * acc) 0

/-- The `while (range) { ++res; range /= 2; }` loop of
`MonolithicEncoding::range_repr_bits`; the first argument is fuel bounding
the iteration count (the loop halves `range`, so `range` itself is enough
fuel), introduced only to make the recursion structural. -/
def range_repr_bits_loop : Nat → Nat → Nat
  | 0, _ => 0
  | _, 0 => 0
  | fuel + 1, r + 1 => range_repr_bits_loop fuel ((r + 1) / 2) + 1

/-- `MonolithicEncoding::range_repr_bits` (src/src/enc/enc.cc lines
182-192): count the binary digits of `range` itself, i.e.
`floor(log2 range) + 1` for positive `range`. -/
def range_repr_bits (range : Nat) : Nat := range_repr_bits_loop range range

/-- Fuel-bounded ceiling logarithm recursion: `clog2 n = clog2 ⌈n/2⌉ + 1`
for `n > 1`. -/
def clog2_loop : Nat → Nat → Nat
  | 0, _ => 0
  | fuel + 1, n => if n ≤ 1 then 0 else clog2_loop fuel ((n + 1) / 2) + 1

/-- `ceil(log2 n)`, the number of bits the claim asserts for an enum of
`n` literals. -/
def clog2 (n : Nat) : Nat := clog2_loop n n

/-- The observable pieces of an `EnumEncoding`: its DDVector, the bits
allocated by `make_monolithic_encoding`, and the two literal maps.  Literals
are identified by their interned ids. -/
structure EnumEnc where
  dv : List Nat
  bits : List Nat
  v2e : List (Nat × Nat)
  e2v : List (Nat × Nat)
  deriving DecidableEq, Repr

/-- `EnumEncoding::EnumEncoding(lits)` (src/src/enc/enc.cc lines 159-171):
`range_repr_bits(lits.size())` bits are allocated by
`make_monolithic_encoding(nbits)`, but its resulting ADD is discarded —
nothing is ever pushed onto `f_dv`, which stays empty.  The maps pair the
literals with `0, 1, ...` in iteration order. -/
def mkEnumEncoding (lits : List Nat) : EnumEnc :=
  let nbits := range_repr_bits lits.length
  { dv := []
    bits := List.range nbits
    v2e := (List.range lits.length).zip lits
    e2v := lits.zip (List.range lits.length) }

/-- Association-list lookup used for the enum maps. -/
def lookupPair (m : List (Nat × Nat)) (k : Nat) : Option Nat :=
  match m with
  | [] => none
  | (k', v) :: rest => if k' = k then some v else lookupPair rest k

/-- `EnumEncoding::expr(assignment)` (src/src/enc/enc.cc lines 173-180):
evaluate `f_dv[0]` and map the resulting value back to a literal.  Reading
digit 0 of an empty DDVector is out of bounds, modelled as `none`. -/
def enumExpr (e : EnumEnc) (digitEval : Nat → Nat) : Option Nat :=
  match e.dv with
  | [] => none
  | d :: _ => lookupPair e.v2e (digitEval d)

/-- The observable pieces of an `ArrayEncoding`: the element encodings'
DDVectors and the concatenated DDVector. -/
structure ArrEnc where
  elements : List (List Nat)
  dv : List Nat
  deriving DecidableEq, Repr

/-- `ArrayEncoding::ArrayEncoding(elements)` (src/src/enc/enc.cc lines
194-205): `f_dv` is filled by appending each element's DDVector in order
(element 0 first). -/
def mkArrayEncoding (elements : List (List Nat)) : ArrEnc :=
  { elements := elements, dv := elements.flatten }

/-- `ArrayEncoding::expr(assignment)` (src/src/enc/enc.cc lines 207-210):
`assert(false)` — evaluation of an array encoding always fails. -/
def arrayExpr (_e : ArrEnc) (_digitEval : Nat → Nat) : Option Nat := none

/-- `BooleanEncoding::expr(assignment)` (src/src/enc/enc.cc lines 72-80):
evaluate the single DD and return the false/true literal; the constructor
always pushes one bit onto `f_dv`, so the boolean family evaluates. -/
def booleanExpr (dv : List Nat) (digitEval : Nat → Nat) : Option Bool :=
  match dv with
  | [] => none
  | d :: _ => some (digitEval d ≠ 0)

end Enc

/-! ## Witness time frames (src/src/witness/witness.cc)

A `TimeFrame` holds a map `FQExpr -> Expr_ptr`; keys are `(ctx, expr, time)`
triples and values interned expressions, both modelled by ids.
`set_value` uses `std::map::insert`, which is a no-op when the key is
already present. -/

namespace Witness

/-- A fully-qualified timed expression key `(ctx, expr, time)`. -/
abbrev FQKey := Nat × Nat × Nat

/-- A single time frame of a witness: the value map, kept in insertion
order. -/
structure TimeFrame where
  map : List (FQKey × Nat)
  deriving DecidableEq, Repr

/-- Map lookup, first binding wins (as in `std::map`, where at most one
binding per key exists). -/
def findKey (m : List (FQKey × Nat)) (k : FQKey) : Option Nat :=
  match m with
  | [] => none
  | (k', v) :: rest => if k' = k then some v else findKey rest k

/-- `TimeFrame::value(expr)` (witness.cc lines 35-43): retrieves the value,
failing (assertion) when none exists. -/
def TimeFrame.value (f : TimeFrame) (k : FQKey) : Option Nat :=
  findKey f.map k

/-- `TimeFrame::has_value(expr)` (witness.cc lines 46-52). -/
def TimeFrame.has_value (f : TimeFrame) (k : FQKey) : Bool :=
  (findKey f.map k).isSome

/-- `TimeFrame::set_value(fqexpr, value)` (witness.cc lines 55-63):
`f_map.insert(...)`, which keeps the existing binding when the key is
already present. -/
def TimeFrame.set_value (f : TimeFrame) (k : FQKey) (v : Nat) : TimeFrame :=
  if (findKey f.map k).isSome then f else ⟨f.map ++ [(k, v)]⟩

/-- The empty time frame, as built by `Witness::new_frame()`. -/
def TimeFrame.empty : TimeFrame := ⟨[]⟩

end Witness

/-! ## Digit-level bitwise paths of `BECompiler` (src/src/model/compiler.cc)

The ADD package's bitwise primitives act digit-wise on evaluated constants:
`BWTimes` is bitwise AND, `BWOr` bitwise OR (spec section 6).  The compiler
pops the operand digits off the working ADD stack (`rhs` first) into arrays
indexed `width .. 1` and pushes the per-digit results in that same order.
Digits are modelled by their evaluated constants; the stack is a list with
its head the top. -/

namespace BECompiler

/-- Pop `width` rhs digits then `width` lhs digits off `stack` and push the
digit-wise combination `f lhs[i] rhs[i]`, preserving the source's push
order (the pair popped first is pushed first, hence ends up deepest). -/
def digitwiseBinary (f : Nat → Nat → Nat) (width : Nat) (stack : List Nat) :
    List Nat :=
  let rhs := stack.take width
  let lhs := (stack.drop width).take width
  (List.zipWith f lhs rhs).reverse ++ stack.drop (2 * width)

/-- The algebraic branch of `BECompiler::walk_or_postorder`
(src/src/model/compiler.cc lines 328-348): the digit-level operation it
applies is `BWTimes` — bitwise AND. -/
def walk_or_postorder_algebraic (width : Nat) (stack : List Nat) : List Nat :=
  digitwiseBinary Nat.land width stack

/-- The algebraic branch of `BECompiler::walk_and_postorder`
(src/src/model/compiler.cc lines 285-305), also `BWTimes`. -/
def walk_and_postorder_algebraic (width : Nat) (stack : List Nat) : List Nat :=
  digitwiseBinary Nat.land width stack

/-- The monolithic branch of `BECompiler::walk_or_postorder`
(src/src/model/compiler.cc lines 322-326): pops two DDs and pushes their
`BWOr`, bitwise OR. -/
def walk_or_postorder_monolithic (stack : List Nat) : List Nat :=
  match stack with
  | rhs :: lhs :: rest => Nat.lor lhs rhs :: rest
  | _ => stack

/-- Digit-wise disjunction, the operation the claim asserts for the
algebraic OR branch. -/
def claimedOrDigits (width : Nat) (stack : List Nat) : List Nat :=
  digitwiseBinary Nat.lor width stack

end BECompiler

/-! ## MUX post-processing (src/src/model/compiler/internals.cc lines 121-141)

`post_process_muxes` walks each toplevel's descriptor list in reverse
insertion order keeping an accumulator ADD `prev`, builds
`act = prev.Cmpl().Times(cnd)`, pushes `act.Xnor(aux)` as an extra toplevel
conjunct, and then sets `prev = act`.  ADDs are 0/1-valued here, so they are
modelled as boolean formulas with `Cmpl`/`Times`/`Or`/`Xnor` as boolean
complement/conjunction/disjunction/equivalence. -/

namespace Mux

/-- 0/1 ADD syntax: constants, boolean variables and the operators
`post_process_muxes` uses. -/
inductive ADDb where
  | azero
  | aone
  | abit (n : Nat)
  | acmpl (a : ADDb)
  | atimes (a b : ADDb)
  | aor (a b : ADDb)
  | axnor (a b : ADDb)
  deriving DecidableEq, Repr

/-- Evaluation of a 0/1 ADD under an assignment of its bits. -/
def ADDb.eval (v : Nat → Bool) : ADDb → Bool
  | .azero => false
  | .aone => true
  | .abit n => v n
  | .acmpl a => ! a.eval v
  | .atimes a b => a.eval v && b.eval v
  | .aor a b => a.eval v || b.eval v
  | .axnor a b => a.eval v == b.eval v

/-- The fields of a `MuxDescriptor` that `post_process_muxes` reads: the
branch condition `cnd` and the activation bit `aux`. -/
structure MuxD where
  cnd : ADDb
  aux : ADDb
  deriving DecidableEq, Repr

/-- The inner loop of `Compiler::post_process_muxes` (internals.cc lines
133-139), iterating an already-reversed descriptor list: emit
`(prev.Cmpl().Times(cnd)).Xnor(aux)` and continue with
`prev = prev.Cmpl().Times(cnd)`. -/
def muxLoop : List MuxD → ADDb → List ADDb
  | [], _ => []
  | d :: rest, prev =>
    (ADDb.axnor (ADDb.atimes (ADDb.acmpl prev) d.cnd) d.aux) ::
      muxLoop rest (ADDb.atimes (ADDb.acmpl prev) d.cnd)

/-- `Compiler::post_process_muxes` restricted to one toplevel entry: the
conjuncts pushed (in push order) for a descriptor list given in insertion
order.  `prev` starts at `f_enc.zero()` and the list is walked with a
reverse iterator. -/
def post_process_muxes (descriptors : List MuxD) : List ADDb :=
  muxLoop descriptors.reverse ADDb.azero

/-- The claim's conjunct list: with `prev_0 = 0` and
`prev_in_succ k = prev_k or cnd_k` over the insertion order, emit
`Xnor(Not(prev_k) and cnd_k, aux_k)` for each k, in reverse insertion
order.  (Written from the spec's words, for comparison against
`post_process_muxes`.) -/
def claimedPrev (descriptors : List MuxD) (k : Nat) : ADDb :=
  (descriptors.take k).foldl (fun p d => ADDb.aor p d.cnd) ADDb.azero

/-- The claim's conjunct for index k of the insertion-ordered list. -/
def claimedConjunct (descriptors : List MuxD) (k : Nat) : ADDb :=
  match descriptors.get? k with
  | none => ADDb.azero
  | some d =>
    ADDb.axnor (ADDb.atimes (ADDb.acmpl (claimedPrev descriptors k)) d.cnd)
      d.aux

/-- All the claim's conjuncts, emitted in reverse insertion order. -/
def claimedConjuncts (descriptors : List MuxD) : List ADDb :=
  ((List.range descriptors.length).map (claimedConjunct descriptors)).reverse

/-- The activation accumulator the code actually maintains: `act` of the
previously visited descriptor (visiting in reverse insertion order). -/
def actsFrom (prev : ADDb) : List MuxD → List ADDb
  | [] => []
  | d :: rest =>
    ADDb.atimes (ADDb.acmpl prev) d.cnd ::
      actsFrom (ADDb.atimes (ADDb.acmpl prev) d.cnd) rest

/-- The amended description of the emitted conjuncts: pair each visited
descriptor (reverse insertion order) with its activation term and emit
`Xnor(act, aux)`. -/
def amendedConjuncts (descriptors : List MuxD) : List ADDb :=
  List.zipWith (fun a d => ADDb.axnor a d.aux)
    (actsFrom ADDb.azero descriptors.reverse) descriptors.reverse

end Mux

/-! ## Backward BMC reachability strategy (bmc/backward.cc)

`Reachability::backward_strategy` drives a SAT engine; the engine itself is
external, so the strategy is embedded as a trace machine: every call into
the engine (`assert_formula`, `assert_fsm_*`, `new_group`,
`invert_last_group`, `solve`) is recorded as an event, and the outcomes of
the `solve` calls are supplied by an oracle indexed by the number of solves
performed so far.  Groups are numbered by a counter, as `new_group` returns
fresh groups.  The shared `status` starts `UNKNOWN` and is set exactly
where the source calls `sync_set_status`; the peer strategies are not
modelled, so `sync_status()` reads back whatever this strategy has set
(single-strategy run).  The loop is fuel-bounded: an adversarial oracle
makes the source loop forever, and exhausting the fuel leaves the status
`UNKNOWN` without emitting further events. -/

namespace Bmc

/-- `UINT_MAX`, the absolute time of the backward goal frame. -/
def UINT_MAX : Nat := 4294967295

/-- Solver outcomes. -/
inductive SS where
  | sat
  | unsat
  | unknown
  deriving DecidableEq, Repr

/-- Reachability statuses this strategy can set. -/
inductive RS where
  | runknown
  | reachable
  | unreachable
  deriving DecidableEq, Repr

/-- Engine events, in the order the strategy issues them. -/
inductive BEv where
  | asrtTarget (time : Nat)
  | asrtInvar (time : Nat)
  | asrtNegCu (idx time : Nat)
  | asrtGlobCu (idx time : Nat)
  | asrtInitGrp (time group : Nat)
  | invertGrp
  | asrtTrans (time : Nat)
  | asrtUniq (tj tk : Nat)
  | solveEv (r : SS)
  deriving DecidableEq, Repr

/-- The strategy's observable outcome: the event trace, the status it set,
and the next fresh group id. -/
structure BSt where
  events : List BEv
  status : RS
  groups : Nat
  deriving DecidableEq, Repr

/-- Assertions of the globally-applied constraint units at time `t`
(`f_globally_time_constraints`, iterated in order). -/
def globAsserts (nglob t : Nat) : List BEv :=
  (List.range nglob).map (fun i => BEv.asrtGlobCu i t)

/-- The state-uniqueness assertions issued after unrolling to `k`:
`for (j = 0; j < k; ++j) assert_fsm_uniqueness(UINT_MAX - j, UINT_MAX - k)`
(backward.cc lines 145-148). -/
def uniqAsserts (k : Nat) : List BEv :=
  (List.range k).map (fun j => BEv.asrtUniq (UINT_MAX - j) (UINT_MAX - k))

/-- The `do { ... } while (sync_status() == REACHABILITY_UNKNOWN)` loop of
`Reachability::backward_strategy` (backward.cc lines 78-184).  Each
iteration asserts `INIT` at `UINT_MAX - k` in a fresh group and solves:
`SAT` sets `REACHABLE`; `UNSAT` inverts the group, unrolls (`TRANS`,
`INVAR`, global constraints at `UINT_MAX - (k+1)`, uniqueness for all
`j < k+1`) and attempts an unreachability proof whose `UNSAT` sets
`UNREACHABLE` and whose `SAT` continues with `k+1`. -/
def bwLoop (nglob : Nat) (oracle : Nat → SS) :
    Nat → Nat → Nat → BSt → BSt
  | 0, _, _, st => st
  | fuel + 1, k, nsolve, st =>
    match oracle nsolve with
    | SS.unknown =>
      { events := st.events ++
          [BEv.asrtInitGrp (UINT_MAX - k) st.groups,
           BEv.solveEv SS.unknown],
        status := RS.runknown, groups := st.groups + 1 }
    | SS.sat =>
      { events := st.events ++
          [BEv.asrtInitGrp (UINT_MAX - k) st.groups, BEv.solveEv SS.sat],
        status := RS.reachable, groups := st.groups + 1 }
    | SS.unsat =>
      match oracle (nsolve + 1) with
      | SS.unknown =>
        { events := st.events ++
            [BEv.asrtInitGrp (UINT_MAX - k) st.groups,
             BEv.solveEv SS.unsat, BEv.invertGrp,
             BEv.asrtTrans (UINT_MAX - (k + 1)),
             BEv.asrtInvar (UINT_MAX - (k + 1))] ++
            globAsserts nglob (UINT_MAX - (k + 1)) ++ uniqAsserts (k + 1) ++
            [BEv.solveEv SS.unknown],
          status := RS.runknown, groups := st.groups + 1 }
      | SS.unsat =>
        { events := st.events ++
            [BEv.asrtInitGrp (UINT_MAX - k) st.groups,
             BEv.solveEv SS.unsat, BEv.invertGrp,
             BEv.asrtTrans (UINT_MAX - (k + 1)),
             BEv.asrtInvar (UINT_MAX - (k + 1))] ++
            globAsserts nglob (UINT_MAX - (k + 1)) ++ uniqAsserts (k + 1) ++
            [BEv.solveEv SS.unsat],
          status := RS.unreachable, groups := st.groups + 1 }
      | SS.sat =>
        bwLoop nglob oracle fuel (k + 1) (nsolve + 2)
          { events := st.events ++
              [BEv.asrtInitGrp (UINT_MAX - k) st.groups,
               BEv.solveEv SS.unsat, BEv.invertGrp,
               BEv.asrtTrans (UINT_MAX - (k + 1)),
               BEv.asrtInvar (UINT_MAX - (k + 1))] ++
              globAsserts nglob (UINT_MAX - (k + 1)) ++ uniqAsserts (k + 1) ++
              [BEv.solveEv SS.sat],
            status := RS.runknown, groups := st.groups + 1 }

/-- `Reachability::backward_strategy()` (backward.cc lines 33-194): assert
the compiled target, `INVAR`, the negative-time constraints and the global
constraints, all at absolute time `UINT_MAX`; solve; `UNSAT` sets
`UNREACHABLE` outright, `UNKNOWN` exits, `SAT` enters the unrolling loop at
`k = 0`. -/
def backward_strategy (nneg nglob : Nat) (oracle : Nat → SS) (fuel : Nat) :
    BSt :=
  let ev0 : List BEv :=
    [BEv.asrtTarget UINT_MAX, BEv.asrtInvar UINT_MAX] ++
      (List.range nneg).map (fun i => BEv.asrtNegCu i UINT_MAX) ++
      globAsserts nglob UINT_MAX
  match oracle 0 with
  | SS.unknown =>
    { events := ev0 ++ [BEv.solveEv SS.unknown], status := RS.runknown,
      groups := 0 }
  | SS.unsat =>
    { events := ev0 ++ [BEv.solveEv SS.unsat], status := RS.unreachable,
      groups := 0 }
  | SS.sat =>
    bwLoop nglob oracle fuel 0 1
      { events := ev0 ++ [BEv.solveEv SS.sat], status := RS.runknown,
        groups := 0 }

end Bmc

/-! ## Compiler memoization (src/src/model/compiler/internals.cc)

The modern compiler's cache machinery is entirely in internals.cc:
`cache_miss` (lines 274-322) replays a cached compilation unit on a hit;
`post_node_hook` (lines 223-272) memoizes, at every node, the node's DDs
together with the **entire** current microcode buffer and mux map.  The
operator walkers that feed these hooks are not part of the sources at
hand, so they are modelled from the spec (section 4.5.2).

ADD nodes are syntactic and auto-generated DDs carry the allocation
counter, so node identity is meaningful.  The working expression language
keeps one representative per operand family the claim touches: an algebraic
binary operator (one MicroDescriptor, fresh result DDs), an algebraic
relational (MicroDescriptor with a single result DD), a boolean connective
(direct ADD algebra), and an algebraic ITE (a MuxDescriptor chain entry
under the toplevel).  All algebraic operands share one width `w`, as the
type system's implicit conversions guarantee. -/

namespace Compiler

/-- ADD nodes: auto-generated bits (`make_auto_dd`, numbered by the
allocation counter), encoding bits of variable `v` digit `i`, and the
boolean product used by the boolean AND path. -/
inductive DDT where
  | auto (k : Nat)
  | vbit (v i : Nat)
  | dtimes (a b : DDT)
  deriving DecidableEq, Repr

/-- Expressions compiled by the toy fragment: algebraic variables, an
algebraic sum, an algebraic relational, a boolean conjunction and an
algebraic if-then-else. -/
inductive KExpr where
  | kvar (n : Nat)
  | kadd (a b : KExpr)
  | klt (a b : KExpr)
  | kand (a b : KExpr)
  | kite (c a b : KExpr)
  deriving DecidableEq, Repr

/-- Structural size, used to show a compilation never caches the very
expression it is currently entered on. -/
def ksize : KExpr → Nat
  | .kvar _ => 1
  | .kadd a b => ksize a + ksize b + 1
  | .klt a b => ksize a + ksize b + 1
  | .kand a b => ksize a + ksize b + 1
  | .kite c a b => ksize c + ksize a + ksize b + 1

/-- Resolved types: boolean or algebraic of DD-width `w`. -/
inductive CType where
  | tbool
  | talg (w : Nat)
  deriving DecidableEq, Repr

/-- DDVector length of a type (`Type::width()`). -/
def CType.width : CType → Nat
  | .tbool => 1
  | .talg w => w

/-- The resolver's typing of the fragment (`f_owner.type(expr, ctx)`); all
algebraic operands have width `w`. -/
def tyOf (w : Nat) : KExpr → Option CType
  | .kvar _ => some (.talg w)
  | .kadd a b =>
    if tyOf w a = some (.talg w) ∧ tyOf w b = some (.talg w) then
      some (.talg w)
    else none
  | .klt a b =>
    if tyOf w a = some (.talg w) ∧ tyOf w b = some (.talg w) then
      some .tbool
    else none
  | .kand a b =>
    if tyOf w a = some .tbool ∧ tyOf w b = some .tbool then some .tbool
    else none
  | .kite c a b =>
    if tyOf w c = some .tbool ∧ tyOf w a = some (.talg w) ∧
        tyOf w b = some (.talg w) then
      some (.talg w)
    else none

/-- Operation tag of the algebraic sum. -/
def opPLUS : Nat := 0

/-- Operation tag of the algebraic less-than. -/
def opLTtag : Nat := 1

/-- `MicroDescriptor`: `(OpTriple, z, x, y)` (spec section 3). -/
structure Micro where
  signed : Bool
  symb : Nat
  width : Nat
  z : List DDT
  x : List DDT
  y : List DDT
  deriving DecidableEq, Repr

/-- `MuxDescriptor`: `(width, z, cnd, aux, x, y)` (spec section 3). -/
structure MuxDesc where
  width : Nat
  z : List DDT
  cnd : DDT
  aux : DDT
  x : List DDT
  y : List DDT
  deriving DecidableEq, Repr

/-- The mux map: toplevel expression to its insertion-ordered descriptor
list. -/
abbrev MuxMap := List (KExpr × List MuxDesc)

/-- `CompilationUnit`: the memoized `(DDVector, [MicroDescriptor], MuxMap)`
triple. -/
structure CUnit where
  dds : List DDT
  micros : List Micro
  muxes : MuxMap
  deriving DecidableEq, Repr

/-- The compiler's working state: the four stacks that matter here (context
and time are fixed at the toplevel of one `process` call, so keys reduce to
expressions), the two side buffers, the memoization cache and the auto-DD
allocation counter. -/
structure CState where
  add_stack : List DDT
  type_stack : List CType
  micros : List Micro
  muxes : MuxMap
  cache : List (KExpr × CUnit)
  fresh : Nat
  deriving DecidableEq, Repr

/-- Association lookup with expression keys (`std::map::find`). -/
def lookupK {α : Type} : List (KExpr × α) → KExpr → Option α
  | [], _ => none
  | (k', v) :: rest, k => if k' = k then some v else lookupK rest k

/-- `std::map::insert`: a no-op when the key is already present. -/
def insertK {α : Type} (m : List (KExpr × α)) (k : KExpr) (v : α) :
    List (KExpr × α) :=
  if (lookupK m k).isSome then m else m ++ [(k, v)]

/-- Inserting every pair of `source` into `target` with `std::map::insert`
semantics, as the mux-map replay of `cache_miss` does (internals.cc lines
305-311). -/
def insertAllK {α : Type} (target source : List (KExpr × α)) :
    List (KExpr × α) :=
  source.foldl (fun t p => insertK t p.1 p.2) target

/-- `Compiler::register_muxdescriptor` (internals.cc lines 90-116): create
the toplevel's entry if absent, then append the descriptor to it. -/
def addMux (m : MuxMap) (top : KExpr) (d : MuxDesc) : MuxMap :=
  match lookupK m top with
  | none => m ++ [(top, [d])]
  | some _ => m.map (fun p => if p.1 = top then (p.1, p.2 ++ [d]) else p)

/-- `make_auto_ddvect`: `w` fresh auto DDs starting at counter `n`. -/
def freshVect (n w : Nat) : List DDT :=
  (List.range w).map (fun i => DDT.auto (n + i))

/-- The registered encoding DDs of variable `v` (digit order, index 0
first). -/
def encReg (w v : Nat) : List DDT :=
  (List.range w).map (fun i => DDT.vbit v i)

/-- `Compiler::cache_miss` hit branch (internals.cc lines 281-317): re-push
the cached DDs reversed (so the stack ends up exactly as the original
compilation left it), append every cached MicroDescriptor, insert the
cached mux entries with `std::map::insert` semantics, and push the resolved
type.  The stack holds its top first, so re-pushing the reversed DDVector
prepends it. -/
def cacheHit (w : Nat) (e : KExpr) (u : CUnit) (st : CState) : CState :=
  { st with
    add_stack := u.dds ++ st.add_stack
    type_stack := (tyOf w e).getD CType.tbool :: st.type_stack
    micros := st.micros ++ u.micros
    muxes := insertAllK st.muxes u.muxes }

/-- `Compiler::post_node_hook` (internals.cc lines 223-272): collect the
top `width` DDs into a DDVector and memoize it together with the whole
current `f_micro_descriptors` and `f_mux_map` buffers. -/
def post_node_hook (e : KExpr) (st : CState) : CState :=
  let t := st.type_stack.headD CType.tbool
  let dv := st.add_stack.take t.width
  { st with cache := insertK st.cache e ⟨dv, st.micros, st.muxes⟩ }

/-- `walk_leaf` on a registered algebraic variable: push the encoding DDs
reversed (stack top = digit 0) and the type (internals.cc `push_dds`,
lines 24-62). -/
def walkLeaf (w n : Nat) (st : CState) : CState :=
  { st with
    add_stack := encReg w n ++ st.add_stack
    type_stack := CType.talg w :: st.type_stack }

/-- Modelled from the spec: the algebraic binary-arithmetic walker
(spec section 4.5.2; the walker itself is not among the sources, only its
services `register_microdescriptor` and `make_auto_ddvect` are).  Pop the
`w` digit DDs of each operand, allocate `w` fresh result DDs, register one
MicroDescriptor and push the result. -/
def walkAddOp (w : Nat) (st : CState) : CState :=
  let rhs := st.add_stack.take w
  let lhs := (st.add_stack.drop w).take w
  let z := freshVect st.fresh w
  { st with
    add_stack := z ++ st.add_stack.drop (2 * w)
    type_stack := CType.talg w :: st.type_stack.drop 2
    micros := st.micros ++ [⟨false, opPLUS, w, z, lhs, rhs⟩]
    fresh := st.fresh + w }

/-- Modelled from the spec: the algebraic relational walker (spec section
4.5.2): one MicroDescriptor whose result DDVector has a single DD. -/
def walkLtOp (w : Nat) (st : CState) : CState :=
  let rhs := st.add_stack.take w
  let lhs := (st.add_stack.drop w).take w
  let z := [DDT.auto st.fresh]
  { st with
    add_stack := z ++ st.add_stack.drop (2 * w)
    type_stack := CType.tbool :: st.type_stack.drop 2
    micros := st.micros ++ [⟨false, opLTtag, w, z, lhs, rhs⟩]
    fresh := st.fresh + 1 }

/-- The boolean AND walker (src/src/model/compiler.cc lines 271-277): pop
two DDs, push their 0/1 product. -/
def walkAndOp (st : CState) : CState :=
  let rhs := st.add_stack.headD (DDT.auto 0)
  let lhs := (st.add_stack.drop 1).headD (DDT.auto 0)
  { st with
    add_stack := DDT.dtimes lhs rhs :: st.add_stack.drop 2
    type_stack := CType.tbool :: st.type_stack.drop 2 }

/-- Modelled from the spec: the algebraic ITE walker (spec section 4.5.2):
pop the two branches and the condition, push `w` fresh result DDs and
register a MuxDescriptor with a fresh activation bit under the toplevel
expression of the current `process` call. -/
def walkIteOp (w : Nat) (top : KExpr) (st : CState) : CState :=
  let rhs := st.add_stack.take w
  let lhs := (st.add_stack.drop w).take w
  let cnd := (st.add_stack.drop (2 * w)).headD (DDT.auto 0)
  let z := freshVect st.fresh w
  let aux := DDT.auto (st.fresh + w)
  { st with
    add_stack := z ++ st.add_stack.drop (2 * w + 1)
    type_stack := CType.talg w :: st.type_stack.drop 3
    muxes := addMux st.muxes top ⟨w, z, cnd, aux, lhs, rhs⟩
    fresh := st.fresh + w + 1 }

/-- One walker invocation on `e`: `preorder` consults the cache through
`cache_miss` (when `uc` is set; `uc = false` is a from-cold compilation
that never reads the cache), a hit replays the cached unit and skips the
subtree, a miss compiles the children, runs the operator's postorder and
memoizes through `post_node_hook`. -/
def compile (uc : Bool) (w : Nat) (top : KExpr) : KExpr → CState → CState
  | .kvar n, st =>
    match (if uc then lookupK st.cache (.kvar n) else none) with
    | some u => cacheHit w (.kvar n) u st
    | none => post_node_hook (.kvar n) (walkLeaf w n st)
  | .kadd a b, st =>
    match (if uc then lookupK st.cache (.kadd a b) else none) with
    | some u => cacheHit w (.kadd a b) u st
    | none =>
      post_node_hook (.kadd a b)
        (walkAddOp w (compile uc w top b (compile uc w top a st)))
  | .klt a b, st =>
    match (if uc then lookupK st.cache (.klt a b) else none) with
    | some u => cacheHit w (.klt a b) u st
    | none =>
      post_node_hook (.klt a b)
        (walkLtOp w (compile uc w top b (compile uc w top a st)))
  | .kand a b, st =>
    match (if uc then lookupK st.cache (.kand a b) else none) with
    | some u => cacheHit w (.kand a b) u st
    | none =>
      post_node_hook (.kand a b)
        (walkAndOp (compile uc w top b (compile uc w top a st)))
  | .kite c a b, st =>
    match (if uc then lookupK st.cache (.kite c a b) else none) with
    | some u => cacheHit w (.kite c a b) u st
    | none =>
      post_node_hook (.kite c a b)
        (walkIteOp w top
          (compile uc w top b
            (compile uc w top a (compile uc w top c st))))

/-- The state at the start of a `process(ctx, body, time)` call: all four
stacks and both side buffers cleared (`clear_internals`). -/
def cleanState : CState :=
  { add_stack := [], type_stack := [], micros := [], muxes := [],
    cache := [], fresh := 0 }

/-- `Compiler::process` on `e`: walk from the clean state with `e` as the
toplevel. -/
def process (w : Nat) (e : KExpr) : CState := compile true w e e cleanState

/-- Replaying `e` against the cache produced by its own clean-state
compilation, from fresh working buffers: the pure cache-hit effect. -/
def hitReplay (w : Nat) (e : KExpr) : CState :=
  compile true w e e
    { cleanState with cache := (process w e).cache, fresh := (process w e).fresh }

/-- The cache well-formedness carried by every reachable compiler state:
every memoized unit belongs to a typeable expression, its DDVector length
is the type's width, and its mux-map keys are distinct (a `std::map`).  The
working mux map's keys are distinct as well. -/
def Inv (w : Nat) (st : CState) : Prop :=
  (∀ p ∈ st.cache, ∃ t, tyOf w p.1 = some t ∧ p.2.dds.length = t.width ∧
    (p.2.muxes.map Prod.fst).Nodup) ∧
  (st.muxes.map Prod.fst).Nodup

/-- The effect of one `compile` call on a well-formed state: it pushes
exactly `width` DDs and the resolved type, appends some microcode, extends
the cache only with entries for subexpressions, preserves the invariant,
and — when the key was absent — leaves the cache holding exactly the
pushed DDs together with the final side buffers (the whole-buffer snapshot
of `post_node_hook`). -/
def EffectConcl (uc : Bool) (w : Nat) (top e : KExpr) (st : CState)
    (t : CType) : Prop :=
  ∃ dnew ms cs,
    (compile uc w top e st).add_stack = dnew ++ st.add_stack ∧
    dnew.length = t.width ∧
    (compile uc w top e st).type_stack = t :: st.type_stack ∧
    (compile uc w top e st).micros = st.micros ++ ms ∧
    (compile uc w top e st).cache = st.cache ++ cs ∧
    (∀ p ∈ cs, ksize p.1 ≤ ksize e) ∧
    Inv w (compile uc w top e st) ∧
    (lookupK st.cache e = none →
      lookupK (compile uc w top e st).cache e =
        some ⟨dnew, (compile uc w top e st).micros,
          (compile uc w top e st).muxes⟩)

/-- Concrete instances for the cache-correctness counterexample:
`(x + y) < y`, compiled as the toplevel of its own run. -/
def xVar : KExpr := KExpr.kvar 0

/-- The second concrete variable. -/
def yVar : KExpr := KExpr.kvar 1

/-- The algebraic predicate `(x + y) < y`. -/
def ltExpr : KExpr := KExpr.klt (KExpr.kadd xVar yVar) yVar

end Compiler

/-! ## Theorems -/

namespace Enc

/-- Horner evaluation with a nonzero seed: the seed contributes
`a * 16 ^ length`. -/
theorem hornerBE_foldl_init (ds : List Nat) (a : Nat) :
    ds.foldl (fun x d => 16 * x + d) a =
      ds.foldl (fun x d => 16 * x + d) 0 + a * 16 ^ ds.length := by
  induction ds generalizing a with
  | nil => simp
  | cons d rest ih =>
    simp only [List.foldl_cons, List.length_cons]
    rw [ih (16 * a + d), ih (16 * 0 + d)]
    ring

/-- The `AlgebraicEncoding::expr` loop computes the Horner scheme that
starts from digit 0. -/
theorem exprAlgLoop_eq_foldl (ds : List Nat) (h : ds ≠ []) :
    ∀ res, exprAlgLoop res ds =
      ds.foldl (fun x d => 16 * x + d) 0 + res * 16 ^ (ds.length - 1) := by
  induction ds with
  | nil => exact absurd rfl h
  | cons d rest ih =>
    intro res
    cases rest with
    | nil => simp [exprAlgLoop]; ring
    | cons d2 rest2 =>
      rw [show exprAlgLoop res (d :: d2 :: rest2) =
            exprAlgLoop ((res + d) * 16) (d2 :: rest2) from rfl]
      rw [ih (by simp) ((res + d) * 16)]
      have e1 : List.foldl (fun x d => 16 * x + d) 0 (d :: d2 :: rest2) =
          List.foldl (fun x d => 16 * x + d) 0 (d2 :: rest2) +
            d * 16 ^ (d2 :: rest2).length := by
        rw [List.foldl_cons, hornerBE_foldl_init]
        ring
      rw [e1]
      simp only [List.length_cons, Nat.add_sub_cancel]
      rw [pow_succ]
      ring

/-- Horner from digit 0 equals the big-endian positional sum. -/
theorem hornerBE_eq_sum (ds : List Nat) :
    ds.foldl (fun x d => 16 * x + d) 0 =
      ∑ i in Finset.range ds.length, ds.getD i 0 * 16 ^ (ds.length - 1 - i) := by
  induction ds with
  | nil => simp
  | cons d rest ih =>
    rw [List.foldl_cons, hornerBE_foldl_init rest (16 * 0 + d), ih]
    rw [List.length_cons, Finset.sum_range_succ']
    congr 1
    · apply Finset.sum_congr rfl
      intro i hi
      have h1 : rest.length + 1 - 1 - (i + 1) = rest.length - 1 - i := by omega
      rw [List.getD_cons_succ, h1]
    · simp

end Enc

/-- Claim C4: the claim says `eval` on a multiplication `a * b` whose
operands evaluate to `l` and `r` returns the product `l * r`; the source's
`walk_mul_postorder` (src/src/expr/expr_eval.cc lines 174-181) instead
computes `lhs / rhs`.  Evaluating the code at the failing input `6 * 3`
yields 2, not 18. -/
theorem c4_mul_evaluates_division :
    Evaluator.eval Evaluator.emptyWitness 0
        (Evaluator.EvExpr.emul (Evaluator.EvExpr.econst 6)
          (Evaluator.EvExpr.econst 3)) 0 = some 2 ∧
      (2 : Nat) ≠ 6 * 3 ∧
      (∀ (w : Evaluator.WitnessFun) (ctx t l r : Nat)
         (a b : Evaluator.EvExpr),
         Evaluator.eval w ctx a t = some l →
         Evaluator.eval w ctx b t = some r →
         Evaluator.eval w ctx (Evaluator.EvExpr.emul a b) t = some (l / r)) := by
  refine ⟨rfl, by decide, ?_⟩
  intro w ctx t l r a b ha hb
  simp [Evaluator.eval, ha, hb]

/-- Claim C5: the claim says `eval` on a right shift `a >> b` whose
operands evaluate to `l` and `r` returns `l >> r`; the source's
`walk_rshift_postorder` (src/src/expr/expr_eval.cc lines 285-292) instead
computes `lhs << rhs`.  Evaluating the code at the failing input `4 >> 1`
yields 8, not 2. -/
theorem c5_rshift_evaluates_lshift :
    Evaluator.eval Evaluator.emptyWitness 0
        (Evaluator.EvExpr.ersh (Evaluator.EvExpr.econst 4)
          (Evaluator.EvExpr.econst 1)) 0 = some 8 ∧
      (8 : Nat) ≠ 4 >>> 1 ∧
      (∀ (w : Evaluator.WitnessFun) (ctx t l r : Nat)
         (a b : Evaluator.EvExpr),
         Evaluator.eval w ctx a t = some l →
         Evaluator.eval w ctx b t = some r →
         Evaluator.eval w ctx (Evaluator.EvExpr.ersh a b) t =
           some ((l <<< r) % Evaluator.wordMod)) := by
  refine ⟨by decide, by decide, ?_⟩
  intro w ctx t l r a b ha hb
  simp [Evaluator.eval, ha, hb]

/-- Claim C6, counterexample: for the width-2 digit evaluations
`d_0 = 1, d_1 = 0`, the source's `AlgebraicEncoding::expr` returns 16,
while the claimed little-endian sum `sum of d_i * 16 ^ i` is 1. -/
theorem c6_counterexample :
    Enc.exprAlg [1, 0] = 16 ∧
      (∑ i in Finset.range 2, ([1, 0].getD i 0) * 16 ^ i) = 1 ∧
      Enc.exprAlg [1, 0] ≠
        ∑ i in Finset.range 2, ([1, 0].getD i 0) * 16 ^ i := by
  refine ⟨rfl, ?_, ?_⟩ <;> decide

/-- Claim C6 (amended): `AlgebraicEncoding::expr` returns the base-16
positional value with digit 0 the MOST significant digit: the sum over i of
`d_i * 16 ^ (W - 1 - i)` (enc.cc lines 138-157 run a Horner accumulation
starting from `f_dv[0]`). -/
theorem c6_expr_is_big_endian :
    ∀ ds : List Nat,
      Enc.exprAlg ds =
        ∑ i in Finset.range ds.length, ds.getD i 0 * 16 ^ (ds.length - 1 - i) := by
  intro ds
  cases ds with
  | nil => simp [Enc.exprAlg, Enc.exprAlgLoop]
  | cons d rest =>
    rw [Enc.exprAlg, Enc.exprAlgLoop_eq_foldl (d :: rest) (by simp)]
    rw [Enc.hornerBE_eq_sum]
    simp

/-- Claim C7: the claim says an enum encoding holds a DDVector of length 1
with a monolithic ADD of `ceil(log2(n))` bits, and that `expr` maps the
evaluated digit back to a literal.  In the source
(src/src/enc/enc.cc lines 159-171) the constructor builds the monolithic
ADD but discards it: nothing is pushed onto `f_dv`, which stays empty,
while `EnumEncoding::expr` (lines 173-180) unconditionally reads
`f_dv[0]` — out of bounds.  Moreover `range_repr_bits` allocates
`floor(log2 n) + 1` bits, which differs from `ceil(log2 n)` at powers of
two (3 bits instead of 2 for 4 literals).  The literal maps themselves are
mutual inverses, as the claim says. -/
theorem c7_enum_encoding_dropped :
    (Enc.mkEnumEncoding [10, 20, 30]).dv = [] ∧
      (∀ digitEval,
        Enc.enumExpr (Enc.mkEnumEncoding [10, 20, 30]) digitEval = none) ∧
      (Enc.mkEnumEncoding [10, 20, 30]).bits.length = 2 ∧
      Enc.range_repr_bits 3 = 2 ∧ Enc.clog2 3 = 2 ∧
      Enc.range_repr_bits 4 = 3 ∧ Enc.clog2 4 = 2 ∧
      Enc.range_repr_bits 4 ≠ Enc.clog2 4 ∧
      Enc.lookupPair (Enc.mkEnumEncoding [10, 20, 30]).v2e 1 = some 20 ∧
      Enc.lookupPair (Enc.mkEnumEncoding [10, 20, 30]).e2v 20 = some 1 := by
  refine ⟨rfl, fun _ => rfl, ?_, ?_, ?_, ?_, ?_, ?_, ?_, ?_⟩ <;> decide

/-- Claim C8: the claim says the algebraic branch of
`BECompiler::walk_or_postorder` combines operand digits with OR; the
source (src/src/model/compiler.cc lines 328-348) applies `BWTimes` —
bitwise AND, the same operation as `walk_and_postorder` — while the
monolithic branch of the same walker correctly uses `BWOr`.  At digit
values `lhs = 0, rhs = 1` the code produces digit 0 where OR yields 1. -/
theorem c8_or_digits_use_and :
    BECompiler.walk_or_postorder_algebraic 1 [1, 0] = [0] ∧
      BECompiler.claimedOrDigits 1 [1, 0] = [1] ∧
      BECompiler.walk_or_postorder_algebraic 1 [1, 0] ≠
        BECompiler.claimedOrDigits 1 [1, 0] ∧
      BECompiler.walk_or_postorder_monolithic [1, 0] = [1] ∧
      (∀ width stack,
        BECompiler.walk_or_postorder_algebraic width stack =
          BECompiler.walk_and_postorder_algebraic width stack) := by
  refine ⟨by decide, by decide, by decide, by decide, fun _ _ => rfl⟩

namespace Witness

/-- A key absent from the prefix is looked up in the suffix. -/
theorem findKey_append_of_none {m l : List (FQKey × Nat)} {k : FQKey}
    (h : findKey m k = none) : findKey (m ++ l) k = findKey l k := by
  induction m with
  | nil => rfl
  | cons p rest ih =>
    rw [findKey] at h
    by_cases hk : p.1 = k
    · simp [hk] at h
    · rw [List.cons_append, findKey]
      simp only [hk, if_false] at h ⊢
      exact ih h

/-- A binding present in the prefix survives appending. -/
theorem findKey_append_of_some {m l : List (FQKey × Nat)} {k : FQKey}
    {v : Nat} (h : findKey m k = some v) : findKey (m ++ l) k = some v := by
  induction m with
  | nil => simp [findKey] at h
  | cons p rest ih =>
    rw [findKey] at h
    by_cases hk : p.1 = k
    · rw [List.cons_append, findKey]
      simp only [hk, if_true] at h ⊢
      exact h
    · rw [List.cons_append, findKey]
      simp only [hk, if_false] at h ⊢
      exact ih h

end Witness

/-- Claim C9: once `set_value(key, v)` has stored a binding in a
`TimeFrame` (the key being previously unset), `has_value(key)` is true and
`value(key)` returns `v`; a later `set_value(key, v2)` leaves the binding
at `v` (`std::map::insert` keeps the existing entry, witness.cc lines
55-63); no binding of another key is removed; and `value` fails exactly
when `has_value` is false. -/
theorem c9_timeframe_append_only (f : Witness.TimeFrame) (k : Witness.FQKey)
    (v : Nat) (h : f.has_value k = false) :
    (f.set_value k v).has_value k = true ∧
      (f.set_value k v).value k = some v ∧
      (∀ v2, ((f.set_value k v).set_value k v2).value k = some v) ∧
      f.value k = none ∧
      (∀ k2 x, f.value k2 = some x → (f.set_value k v).value k2 = some x) ∧
      (∀ (g : Witness.TimeFrame) (k3 : Witness.FQKey),
        g.value k3 = none ↔ g.has_value k3 = false) := by
  have hnone : Witness.findKey f.map k = none := by
    rw [Witness.TimeFrame.has_value] at h
    exact Option.not_isSome_iff_eq_none.mp (by simp [h])
  have hset : f.set_value k v = ⟨f.map ++ [(k, v)]⟩ := by
    rw [Witness.TimeFrame.set_value, hnone]
    rfl
  have hval : (f.set_value k v).value k = some v := by
    rw [hset, Witness.TimeFrame.value, Witness.findKey_append_of_none hnone]
    simp [Witness.findKey]
  refine ⟨?_, hval, ?_, hnone, ?_, ?_⟩
  · rw [Witness.TimeFrame.has_value]
    rw [Witness.TimeFrame.value] at hval
    simp [hval]
  · intro v2
    have hsome : Witness.findKey (f.set_value k v).map k = some v := hval
    rw [Witness.TimeFrame.set_value, hsome]
    exact hval
  · intro k2 x hx
    rw [hset, Witness.TimeFrame.value,
      Witness.findKey_append_of_some (m := f.map) hx]
  · intro g k3
    rw [Witness.TimeFrame.value, Witness.TimeFrame.has_value]
    cases Witness.findKey g.map k3 <;> simp

/-- Witness for C9: a fresh binding in the empty frame behaves as stated. -/
theorem c9_timeframe_append_only_witness :
    Witness.TimeFrame.empty.has_value (0, 0, 0) = false ∧
      ((Witness.TimeFrame.empty.set_value (0, 0, 0) 5).has_value (0, 0, 0) = true ∧
        (Witness.TimeFrame.empty.set_value (0, 0, 0) 5).value (0, 0, 0) = some 5 ∧
        (∀ v2,
          ((Witness.TimeFrame.empty.set_value (0, 0, 0) 5).set_value (0, 0, 0)
              v2).value (0, 0, 0) = some 5) ∧
        Witness.TimeFrame.empty.value (0, 0, 0) = none ∧
        (∀ k2 x, Witness.TimeFrame.empty.value k2 = some x →
          (Witness.TimeFrame.empty.set_value (0, 0, 0) 5).value k2 = some x) ∧
        (∀ (g : Witness.TimeFrame) (k3 : Witness.FQKey),
          g.value k3 = none ↔ g.has_value k3 = false)) :=
  ⟨rfl, c9_timeframe_append_only Witness.TimeFrame.empty (0, 0, 0) 5 rfl⟩

/-- Claim C10: `ArrayEncoding::expr` unconditionally fails
(`assert(false)`, enc.cc lines 207-210) for every array encoding and every
assignment, although the array DDVector is the in-order concatenation of
the element encodings' DDVectors (lines 194-205); the boolean family, by
contrast, evaluates its one-bit DDVector. -/
theorem c10_array_expr_always_fails :
    ∀ (elements : List (List Nat)) (digitEval : Nat → Nat),
      Enc.arrayExpr (Enc.mkArrayEncoding elements) digitEval = none ∧
        (Enc.mkArrayEncoding elements).dv = elements.flatten ∧
        (∀ bit f2, Enc.booleanExpr [bit] f2 = some (decide (f2 bit ≠ 0))) :=
  fun _ _ => ⟨rfl, rfl, fun _ _ => rfl⟩

namespace Mux

/-- The `post_process_muxes` loop pairs each visited descriptor with the
activation term chained from the previous one. -/
theorem muxLoop_eq_zipWith (l : List MuxD) :
    ∀ prev, muxLoop l prev =
      List.zipWith (fun a d => ADDb.axnor a d.aux) (actsFrom prev l) l := by
  induction l with
  | nil => intro prev; rfl
  | cons d rest ih =>
    intro prev
    rw [muxLoop, actsFrom, List.zipWith_cons_cons, ih]

end Mux

/-- Claim C2, counterexample: take one toplevel owning two descriptors in
insertion order `d0 = (cnd = bit 0, aux = bit 2)`,
`d1 = (cnd = bit 1, aux = bit 3)` and the assignment with
`bit 0 = bit 1 = bit 3 = true`, `bit 2 = false`.  The claim's conjunct for
`d1` is `Xnor(Not(prev_1) and cnd_1, aux_1)` with `prev_1 = 0 or cnd_0`,
which evaluates to false; but the code visits `d1` first with `prev = 0`
and pushes a conjunct evaluating to true: the source accumulates
`prev = act`, not `prev or cnd`, so the emitted conjuncts differ from the
claimed ones as ADDs. -/
theorem c2_counterexample :
    (Mux.post_process_muxes
        [⟨Mux.ADDb.abit 0, Mux.ADDb.abit 2⟩,
         ⟨Mux.ADDb.abit 1, Mux.ADDb.abit 3⟩]).map
        (Mux.ADDb.eval (fun n => n == 0 || n == 1 || n == 3)) =
      [true, true] ∧
    (Mux.claimedConjuncts
        [⟨Mux.ADDb.abit 0, Mux.ADDb.abit 2⟩,
         ⟨Mux.ADDb.abit 1, Mux.ADDb.abit 3⟩]).map
        (Mux.ADDb.eval (fun n => n == 0 || n == 1 || n == 3)) =
      [false, false] ∧
    Mux.post_process_muxes
        [⟨Mux.ADDb.abit 0, Mux.ADDb.abit 2⟩,
         ⟨Mux.ADDb.abit 1, Mux.ADDb.abit 3⟩] ≠
      Mux.claimedConjuncts
        [⟨Mux.ADDb.abit 0, Mux.ADDb.abit 2⟩,
         ⟨Mux.ADDb.abit 1, Mux.ADDb.abit 3⟩] := by
  refine ⟨by decide, by decide, by decide⟩

/-- Claim C2 (amended): for every toplevel with descriptors
`[d0, ..., dn-1]` in insertion order, `post_process_muxes` visits them in
reverse insertion order and pushes, for the i-th visited descriptor `e_i`,
the conjunct `Xnor(Not(prev_i) and e_i.cnd, e_i.aux)`, where `prev_0 = 0`
and `prev_in_succ i` is the activation term `Not(prev_i) and e_i.cnd` just
computed — not the disjunction of the earlier-registered conditions
(internals.cc lines 121-141: `prev = act`). -/
theorem c2_mux_activation_chain :
    ∀ descriptors : List Mux.MuxD,
      Mux.post_process_muxes descriptors = Mux.amendedConjuncts descriptors := by
  intro ds
  rw [Mux.post_process_muxes, Mux.amendedConjuncts, Mux.muxLoop_eq_zipWith]

namespace Bmc

/-- The loop only ever appends to the event trace. -/
theorem bwLoop_events_mono (nglob : Nat) (oracle : Nat → SS) :
    ∀ fuel k nsolve st, ∃ suffix,
      (bwLoop nglob oracle fuel k nsolve st).events = st.events ++ suffix := by
  intro fuel
  induction fuel with
  | zero => intro k ns st; exact ⟨[], by simp [bwLoop]⟩
  | succ fl ih =>
    intro k ns st
    rw [bwLoop]
    cases h1 : oracle ns with
    | unknown =>
      exact ⟨[BEv.asrtInitGrp (UINT_MAX - k) st.groups,
        BEv.solveEv SS.unknown], rfl⟩
    | sat =>
      exact ⟨[BEv.asrtInitGrp (UINT_MAX - k) st.groups,
        BEv.solveEv SS.sat], rfl⟩
    | unsat =>
      cases h2 : oracle (ns + 1) with
      | unknown =>
        refine ⟨[BEv.asrtInitGrp (UINT_MAX - k) st.groups,
          BEv.solveEv SS.unsat, BEv.invertGrp,
          BEv.asrtTrans (UINT_MAX - (k + 1)),
          BEv.asrtInvar (UINT_MAX - (k + 1))] ++
          globAsserts nglob (UINT_MAX - (k + 1)) ++ uniqAsserts (k + 1) ++
          [BEv.solveEv SS.unknown], ?_⟩
        simp [List.append_assoc]
      | unsat =>
        refine ⟨[BEv.asrtInitGrp (UINT_MAX - k) st.groups,
          BEv.solveEv SS.unsat, BEv.invertGrp,
          BEv.asrtTrans (UINT_MAX - (k + 1)),
          BEv.asrtInvar (UINT_MAX - (k + 1))] ++
          globAsserts nglob (UINT_MAX - (k + 1)) ++ uniqAsserts (k + 1) ++
          [BEv.solveEv SS.unsat], ?_⟩
        simp [List.append_assoc]
      | sat =>
        obtain ⟨s, hs⟩ :=
          ih (k + 1) (ns + 2)
            { events := st.events ++
                [BEv.asrtInitGrp (UINT_MAX - k) st.groups,
                 BEv.solveEv SS.unsat, BEv.invertGrp,
                 BEv.asrtTrans (UINT_MAX - (k + 1)),
                 BEv.asrtInvar (UINT_MAX - (k + 1))] ++
                globAsserts nglob (UINT_MAX - (k + 1)) ++
                uniqAsserts (k + 1) ++ [BEv.solveEv SS.sat],
              status := RS.runknown, groups := st.groups + 1 }
        refine ⟨[BEv.asrtInitGrp (UINT_MAX - k) st.groups,
          BEv.solveEv SS.unsat, BEv.invertGrp,
          BEv.asrtTrans (UINT_MAX - (k + 1)),
          BEv.asrtInvar (UINT_MAX - (k + 1))] ++
          globAsserts nglob (UINT_MAX - (k + 1)) ++ uniqAsserts (k + 1) ++
          [BEv.solveEv SS.sat] ++ s, ?_⟩
        rw [hs]
        simp [List.append_assoc]

end Bmc

/-- Claim C3: `backward_strategy` (bmc/backward.cc lines 33-194) asserts
the compiled target and `INVAR` at absolute time `UINT_MAX` and solves; an
initial `UNSAT` sets `UNREACHABLE` with no unrolling (no `TRANS`, no
`INIT` group ever asserted).  Each loop iteration `k` asserts `INIT` at
`UINT_MAX - k` in a fresh group as the witness check: `SAT` wins
`REACHABLE`; on `UNSAT` the group is inverted, `k` is incremented, `TRANS`
and `INVAR` are asserted at `UINT_MAX - k`, state uniqueness is asserted
for every pair `(UINT_MAX - j, UINT_MAX - k)` with `j < k`, and the
unreachability proof is attempted: its `UNSAT` sets `UNREACHABLE`, its
`SAT` continues at `k`. -/
theorem c3_backward_strategy_spec (nneg nglob fuel : Nat)
    (oracle : Nat → Bmc.SS) :
    ((Bmc.backward_strategy nneg nglob oracle fuel).events.take 2 =
        [Bmc.BEv.asrtTarget Bmc.UINT_MAX, Bmc.BEv.asrtInvar Bmc.UINT_MAX]) ∧
    (oracle 0 = Bmc.SS.unsat →
      (Bmc.backward_strategy nneg nglob oracle fuel).status =
          Bmc.RS.unreachable ∧
        (∀ t, Bmc.BEv.asrtTrans t ∉
          (Bmc.backward_strategy nneg nglob oracle fuel).events) ∧
        (∀ t g, Bmc.BEv.asrtInitGrp t g ∉
          (Bmc.backward_strategy nneg nglob oracle fuel).events)) ∧
    (∀ fl k ns st, oracle ns = Bmc.SS.sat →
      Bmc.bwLoop nglob oracle (fl + 1) k ns st =
        { events := st.events ++
            [Bmc.BEv.asrtInitGrp (Bmc.UINT_MAX - k) st.groups,
             Bmc.BEv.solveEv Bmc.SS.sat],
          status := Bmc.RS.reachable, groups := st.groups + 1 }) ∧
    (∀ fl k ns st, oracle ns = Bmc.SS.unsat →
      oracle (ns + 1) = Bmc.SS.unsat →
      Bmc.bwLoop nglob oracle (fl + 1) k ns st =
        { events := st.events ++
            [Bmc.BEv.asrtInitGrp (Bmc.UINT_MAX - k) st.groups,
             Bmc.BEv.solveEv Bmc.SS.unsat, Bmc.BEv.invertGrp,
             Bmc.BEv.asrtTrans (Bmc.UINT_MAX - (k + 1)),
             Bmc.BEv.asrtInvar (Bmc.UINT_MAX - (k + 1))] ++
            Bmc.globAsserts nglob (Bmc.UINT_MAX - (k + 1)) ++
            Bmc.uniqAsserts (k + 1) ++ [Bmc.BEv.solveEv Bmc.SS.unsat],
          status := Bmc.RS.unreachable, groups := st.groups + 1 }) ∧
    (∀ fl k ns st, oracle ns = Bmc.SS.unsat →
      oracle (ns + 1) = Bmc.SS.sat →
      Bmc.bwLoop nglob oracle (fl + 1) k ns st =
        Bmc.bwLoop nglob oracle fl (k + 1) (ns + 2)
          { events := st.events ++
              [Bmc.BEv.asrtInitGrp (Bmc.UINT_MAX - k) st.groups,
               Bmc.BEv.solveEv Bmc.SS.unsat, Bmc.BEv.invertGrp,
               Bmc.BEv.asrtTrans (Bmc.UINT_MAX - (k + 1)),
               Bmc.BEv.asrtInvar (Bmc.UINT_MAX - (k + 1))] ++
              Bmc.globAsserts nglob (Bmc.UINT_MAX - (k + 1)) ++
              Bmc.uniqAsserts (k + 1) ++ [Bmc.BEv.solveEv Bmc.SS.sat],
            status := Bmc.RS.runknown, groups := st.groups + 1 }) ∧
    (∀ k, Bmc.uniqAsserts k =
      (List.range k).map
        (fun j => Bmc.BEv.asrtUniq (Bmc.UINT_MAX - j) (Bmc.UINT_MAX - k))) := by
  refine ⟨?_, ?_, ?_, ?_, ?_, fun _ => rfl⟩
  · rw [Bmc.backward_strategy]
    cases h0 : oracle 0 with
    | unknown => simp
    | unsat => simp
    | sat =>
      obtain ⟨s, hs⟩ := Bmc.bwLoop_events_mono nglob oracle fuel 0 1
        { events := [Bmc.BEv.asrtTarget Bmc.UINT_MAX,
            Bmc.BEv.asrtInvar Bmc.UINT_MAX] ++
            List.map (fun i => Bmc.BEv.asrtNegCu i Bmc.UINT_MAX)
              (List.range nneg) ++
            Bmc.globAsserts nglob Bmc.UINT_MAX ++
            [Bmc.BEv.solveEv Bmc.SS.sat],
          status := Bmc.RS.runknown, groups := 0 }
      show List.take 2 (Bmc.bwLoop nglob oracle fuel 0 1
        { events := [Bmc.BEv.asrtTarget Bmc.UINT_MAX,
            Bmc.BEv.asrtInvar Bmc.UINT_MAX] ++
            List.map (fun i => Bmc.BEv.asrtNegCu i Bmc.UINT_MAX)
              (List.range nneg) ++
            Bmc.globAsserts nglob Bmc.UINT_MAX ++
            [Bmc.BEv.solveEv Bmc.SS.sat],
          status := Bmc.RS.runknown, groups := 0 }).events =
        [Bmc.BEv.asrtTarget Bmc.UINT_MAX, Bmc.BEv.asrtInvar Bmc.UINT_MAX]
      rw [hs]
      simp [List.take]
  · intro h0
    rw [Bmc.backward_strategy, h0]
    refine ⟨rfl, ?_, ?_⟩
    · intro t
      simp [Bmc.globAsserts]
    · intro t g
      simp [Bmc.globAsserts]
  · intro fl k ns st hsat
    rw [Bmc.bwLoop, hsat]
  · intro fl k ns st h1 h2
    rw [Bmc.bwLoop, h1, h2]
  · intro fl k ns st h1 h2
    rw [Bmc.bwLoop, h1, h2]

/-- Witness for C3: a constantly-UNSAT oracle decides `UNREACHABLE` at the
initial solve; a SAT witness check at `k = 0` decides `REACHABLE`. -/
theorem c3_backward_strategy_spec_witness :
    (Bmc.backward_strategy 0 0 (fun _ => Bmc.SS.unsat) 3).status =
        Bmc.RS.unreachable ∧
      Bmc.bwLoop 0 (fun _ => Bmc.SS.sat) 1 0 0
          ⟨[], Bmc.RS.runknown, 0⟩ =
        { events := [Bmc.BEv.asrtInitGrp Bmc.UINT_MAX 0,
            Bmc.BEv.solveEv Bmc.SS.sat],
          status := Bmc.RS.reachable, groups := 1 } := by
  constructor
  · exact ((c3_backward_strategy_spec 0 0 3 (fun _ => Bmc.SS.unsat)).2.1 rfl).1
  · have h := (c3_backward_strategy_spec 0 0 3 (fun _ => Bmc.SS.sat)).2.2.1
      0 0 0 ⟨[], Bmc.RS.runknown, 0⟩ rfl
    simpa using h

namespace Compiler

/-- A key is looked up to `none` exactly when it is not among the keys. -/
theorem lookupK_eq_none_iff {α : Type} {m : List (KExpr × α)} {k : KExpr} :
    lookupK m k = none ↔ k ∉ m.map Prod.fst := by
  induction m with
  | nil => simp [lookupK]
  | cons p rest ih =>
    rw [lookupK]
    by_cases hp : p.1 = k
    · simp [hp]
    · simp only [hp, if_false, List.map_cons, List.mem_cons, ih]
      constructor
      · intro h hmem
        rcases hmem with h1 | h2
        · exact hp h1.symm
        · exact h h2
      · intro h hmem
        exact h (Or.inr hmem)

/-- A key absent from the prefix is looked up in the suffix. -/
theorem lookupK_append {α : Type} {m : List (KExpr × α)} (l : List (KExpr × α))
    {k : KExpr} (h : lookupK m k = none) :
    lookupK (m ++ l) k = lookupK l k := by
  induction m with
  | nil => rfl
  | cons p rest ih =>
    rw [lookupK] at h
    by_cases hp : p.1 = k
    · simp [hp] at h
    · rw [List.cons_append, lookupK]
      simp only [hp, if_false] at h ⊢
      exact ih h

/-- Inserting an absent key appends the pair. -/
theorem insertK_of_absent {α : Type} {m : List (KExpr × α)} {k : KExpr}
    {v : α} (h : lookupK m k = none) : insertK m k v = m ++ [(k, v)] := by
  rw [insertK, h]
  rfl

/-- Looking up the key just appended finds it. -/
theorem lookupK_append_self {α : Type} {m : List (KExpr × α)} {k : KExpr}
    {v : α} (h : lookupK m k = none) : lookupK (m ++ [(k, v)]) k = some v := by
  rw [lookupK_append _ h, lookupK]
  simp

/-- `insertK` preserves distinctness of the keys. -/
theorem insertK_keys_nodup {α : Type} {m : List (KExpr × α)} {k : KExpr}
    {v : α} (h : (m.map Prod.fst).Nodup) :
    ((insertK m k v).map Prod.fst).Nodup := by
  rw [insertK]
  cases hl : lookupK m k with
  | some u => simpa using h
  | none =>
    have hk : k ∉ m.map Prod.fst := lookupK_eq_none_iff.mp hl
    simp only [Option.isSome_none, Bool.false_eq_true, if_false, List.map_append]
    rw [List.nodup_append]
    refine ⟨h, by simp, ?_⟩
    intro a ha hmem
    simp only [List.map_cons, List.map_nil, List.mem_singleton] at hmem
    subst hmem
    exact hk ha

/-- `insertAllK` preserves distinctness of the target's keys. -/
theorem insertAllK_keys_nodup {α : Type} {s t : List (KExpr × α)}
    (h : (t.map Prod.fst).Nodup) :
    ((insertAllK t s).map Prod.fst).Nodup := by
  induction s generalizing t with
  | nil => exact h
  | cons p rest ih =>
    rw [insertAllK, List.foldl_cons]
    exact ih (insertK_keys_nodup h)

/-- When the source's keys are distinct and disjoint from the target,
`insertAllK` is plain concatenation. -/
theorem insertAllK_of_disjoint {α : Type} {s t : List (KExpr × α)}
    (hd : ∀ k ∈ s.map Prod.fst, lookupK t k = none)
    (hs : (s.map Prod.fst).Nodup) : insertAllK t s = t ++ s := by
  induction s generalizing t with
  | nil => simp [insertAllK]
  | cons p rest ih =>
    simp only [insertAllK, List.foldl_cons]
    rw [insertK_of_absent (hd p.1 (by simp))]
    have hd2 : ∀ k ∈ rest.map Prod.fst, lookupK (t ++ [(p.1, p.2)]) k = none := by
      intro k hk
      rw [lookupK_append _ (hd k (by simp [hk])), lookupK]
      have hne : p.1 ≠ k := by
        intro hcontra
        rw [List.map_cons] at hs
        exact (List.nodup_cons.mp hs).1 (hcontra ▸ hk)
      simp [hne, lookupK]
    have hs2 : (rest.map Prod.fst).Nodup := by
      rw [List.map_cons] at hs
      exact (List.nodup_cons.mp hs).2
    have hrec := ih hd2 hs2
    simp only [insertAllK] at hrec
    rw [hrec]
    simp

/-- Inserting every pair into the empty map keeps a distinct-keyed map
unchanged. -/
theorem insertAllK_nil {α : Type} {s : List (KExpr × α)}
    (hs : (s.map Prod.fst).Nodup) : insertAllK [] s = s := by
  rw [insertAllK_of_disjoint (t := []) (fun k _ => rfl) hs]
  rfl

/-- `addMux` preserves distinctness of the mux-map keys. -/
theorem addMux_keys_nodup {m : MuxMap} {top : KExpr} {d : MuxDesc}
    (h : (m.map Prod.fst).Nodup) :
    ((addMux m top d).map Prod.fst).Nodup := by
  rw [addMux]
  cases hl : lookupK m top with
  | none =>
    have hk : top ∉ m.map Prod.fst := lookupK_eq_none_iff.mp hl
    simp only [List.map_append]
    rw [List.nodup_append]
    refine ⟨h, by simp, ?_⟩
    intro a ha hmem
    simp only [List.map_cons, List.map_nil, List.mem_singleton] at hmem
    subst hmem
    exact hk ha
  | some l =>
    have : (m.map (fun p => if p.1 = top then (p.1, p.2 ++ [d]) else p)).map
        Prod.fst = m.map Prod.fst := by
      rw [List.map_map]
      apply List.map_congr_left
      intro p _
      by_cases hp : p.1 = top <;> simp [hp]
    rw [this]
    exact h

end Compiler

namespace Compiler

/-- A successful lookup returns a pair of the list. -/
theorem lookupK_some_mem {α : Type} {m : List (KExpr × α)} {k : KExpr}
    {v : α} (h : lookupK m k = some v) : (k, v) ∈ m := by
  induction m with
  | nil => simp [lookupK] at h
  | cons p rest ih =>
    rw [lookupK] at h
    by_cases hp : p.1 = k
    · simp only [hp, if_true] at h
      have hv : p = (k, v) := by
        rw [← hp, ← Option.some.inj h]
      rw [← hv]
      exact List.mem_cons_self p rest
    · simp only [hp, if_false] at h
      exact List.mem_cons_of_mem _ (ih h)

/-- Taking the length of the left part of an append yields it. -/
theorem take_append_len {α : Type _} {l r : List α} {n : Nat}
    (h : l.length = n) : (l ++ r).take n = l := by
  subst h
  exact List.take_left l r

/-- Dropping the length of the left part of an append yields the right
part. -/
theorem drop_append_len {α : Type _} {l r : List α} {n : Nat}
    (h : l.length = n) : (l ++ r).drop n = r := by
  subst h
  exact List.drop_left l r

@[simp]
theorem length_freshVect (n w : Nat) : (freshVect n w).length = w := by
  simp [freshVect]

@[simp]
theorem length_encReg (w v : Nat) : (encReg w v).length = w := by
  simp [encReg]

/-- Inversion of the typing of a sum. -/
theorem tyOf_kadd {w : Nat} {a b : KExpr} {t : CType}
    (h : tyOf w (KExpr.kadd a b) = some t) :
    t = CType.talg w ∧ tyOf w a = some (CType.talg w) ∧
      tyOf w b = some (CType.talg w) := by
  rw [tyOf] at h
  split at h
  · rename_i hc
    exact ⟨(Option.some.inj h).symm, hc.1, hc.2⟩
  · exact absurd h (by simp)

/-- Inversion of the typing of a relational. -/
theorem tyOf_klt {w : Nat} {a b : KExpr} {t : CType}
    (h : tyOf w (KExpr.klt a b) = some t) :
    t = CType.tbool ∧ tyOf w a = some (CType.talg w) ∧
      tyOf w b = some (CType.talg w) := by
  rw [tyOf] at h
  split at h
  · rename_i hc
    exact ⟨(Option.some.inj h).symm, hc.1, hc.2⟩
  · exact absurd h (by simp)

/-- Inversion of the typing of a conjunction. -/
theorem tyOf_kand {w : Nat} {a b : KExpr} {t : CType}
    (h : tyOf w (KExpr.kand a b) = some t) :
    t = CType.tbool ∧ tyOf w a = some CType.tbool ∧
      tyOf w b = some CType.tbool := by
  rw [tyOf] at h
  split at h
  · rename_i hc
    exact ⟨(Option.some.inj h).symm, hc.1, hc.2⟩
  · exact absurd h (by simp)

/-- Inversion of the typing of an if-then-else. -/
theorem tyOf_kite {w : Nat} {c a b : KExpr} {t : CType}
    (h : tyOf w (KExpr.kite c a b) = some t) :
    t = CType.talg w ∧ tyOf w c = some CType.tbool ∧
      tyOf w a = some (CType.talg w) ∧ tyOf w b = some (CType.talg w) := by
  rw [tyOf] at h
  split at h
  · rename_i hc
    exact ⟨(Option.some.inj h).symm, hc.1, hc.2.1, hc.2.2⟩
  · exact absurd h (by simp)

@[simp]
theorem post_node_hook_add_stack (e : KExpr) (st : CState) :
    (post_node_hook e st).add_stack = st.add_stack := rfl

@[simp]
theorem post_node_hook_type_stack (e : KExpr) (st : CState) :
    (post_node_hook e st).type_stack = st.type_stack := rfl

@[simp]
theorem post_node_hook_micros (e : KExpr) (st : CState) :
    (post_node_hook e st).micros = st.micros := rfl

@[simp]
theorem post_node_hook_muxes (e : KExpr) (st : CState) :
    (post_node_hook e st).muxes = st.muxes := rfl

@[simp]
theorem post_node_hook_fresh (e : KExpr) (st : CState) :
    (post_node_hook e st).fresh = st.fresh := rfl

theorem post_node_hook_cache (e : KExpr) (st : CState) :
    (post_node_hook e st).cache =
      insertK st.cache e
        ⟨st.add_stack.take (st.type_stack.headD CType.tbool).width,
         st.micros, st.muxes⟩ := rfl

@[simp]
theorem cacheHit_add_stack (w : Nat) (e : KExpr) (u : CUnit) (st : CState) :
    (cacheHit w e u st).add_stack = u.dds ++ st.add_stack := rfl

@[simp]
theorem cacheHit_type_stack (w : Nat) (e : KExpr) (u : CUnit) (st : CState) :
    (cacheHit w e u st).type_stack =
      (tyOf w e).getD CType.tbool :: st.type_stack := rfl

@[simp]
theorem cacheHit_micros (w : Nat) (e : KExpr) (u : CUnit) (st : CState) :
    (cacheHit w e u st).micros = st.micros ++ u.micros := rfl

@[simp]
theorem cacheHit_muxes (w : Nat) (e : KExpr) (u : CUnit) (st : CState) :
    (cacheHit w e u st).muxes = insertAllK st.muxes u.muxes := rfl

@[simp]
theorem cacheHit_cache (w : Nat) (e : KExpr) (u : CUnit) (st : CState) :
    (cacheHit w e u st).cache = st.cache := rfl

@[simp]
theorem cacheHit_fresh (w : Nat) (e : KExpr) (u : CUnit) (st : CState) :
    (cacheHit w e u st).fresh = st.fresh := rfl

@[simp]
theorem walkLeaf_add_stack (w n : Nat) (st : CState) :
    (walkLeaf w n st).add_stack = encReg w n ++ st.add_stack := rfl

@[simp]
theorem walkLeaf_type_stack (w n : Nat) (st : CState) :
    (walkLeaf w n st).type_stack = CType.talg w :: st.type_stack := rfl

@[simp]
theorem walkLeaf_micros (w n : Nat) (st : CState) :
    (walkLeaf w n st).micros = st.micros := rfl

@[simp]
theorem walkLeaf_muxes (w n : Nat) (st : CState) :
    (walkLeaf w n st).muxes = st.muxes := rfl

@[simp]
theorem walkLeaf_cache (w n : Nat) (st : CState) :
    (walkLeaf w n st).cache = st.cache := rfl

@[simp]
theorem walkAddOp_add_stack (w : Nat) (st : CState) :
    (walkAddOp w st).add_stack =
      freshVect st.fresh w ++ st.add_stack.drop (2 * w) := rfl

@[simp]
theorem walkAddOp_type_stack (w : Nat) (st : CState) :
    (walkAddOp w st).type_stack =
      CType.talg w :: st.type_stack.drop 2 := rfl

@[simp]
theorem walkAddOp_micros (w : Nat) (st : CState) :
    (walkAddOp w st).micros = st.micros ++
      [⟨false, opPLUS, w, freshVect st.fresh w,
        (st.add_stack.drop w).take w, st.add_stack.take w⟩] := rfl

@[simp]
theorem walkAddOp_muxes (w : Nat) (st : CState) :
    (walkAddOp w st).muxes = st.muxes := rfl

@[simp]
theorem walkAddOp_cache (w : Nat) (st : CState) :
    (walkAddOp w st).cache = st.cache := rfl

@[simp]
theorem walkLtOp_add_stack (w : Nat) (st : CState) :
    (walkLtOp w st).add_stack =
      [DDT.auto st.fresh] ++ st.add_stack.drop (2 * w) := rfl

@[simp]
theorem walkLtOp_type_stack (w : Nat) (st : CState) :
    (walkLtOp w st).type_stack = CType.tbool :: st.type_stack.drop 2 := rfl

@[simp]
theorem walkLtOp_micros (w : Nat) (st : CState) :
    (walkLtOp w st).micros = st.micros ++
      [⟨false, opLTtag, w, [DDT.auto st.fresh],
        (st.add_stack.drop w).take w, st.add_stack.take w⟩] := rfl

@[simp]
theorem walkLtOp_muxes (w : Nat) (st : CState) :
    (walkLtOp w st).muxes = st.muxes := rfl

@[simp]
theorem walkLtOp_cache (w : Nat) (st : CState) :
    (walkLtOp w st).cache = st.cache := rfl

@[simp]
theorem walkAndOp_add_stack (st : CState) :
    (walkAndOp st).add_stack =
      DDT.dtimes ((st.add_stack.drop 1).headD (DDT.auto 0))
          (st.add_stack.headD (DDT.auto 0)) :: st.add_stack.drop 2 := rfl

@[simp]
theorem walkAndOp_type_stack (st : CState) :
    (walkAndOp st).type_stack = CType.tbool :: st.type_stack.drop 2 := rfl

@[simp]
theorem walkAndOp_micros (st : CState) :
    (walkAndOp st).micros = st.micros := rfl

@[simp]
theorem walkAndOp_muxes (st : CState) :
    (walkAndOp st).muxes = st.muxes := rfl

@[simp]
theorem walkAndOp_cache (st : CState) :
    (walkAndOp st).cache = st.cache := rfl

@[simp]
theorem walkIteOp_add_stack (w : Nat) (top : KExpr) (st : CState) :
    (walkIteOp w top st).add_stack =
      freshVect st.fresh w ++ st.add_stack.drop (2 * w + 1) := rfl

@[simp]
theorem walkIteOp_type_stack (w : Nat) (top : KExpr) (st : CState) :
    (walkIteOp w top st).type_stack =
      CType.talg w :: st.type_stack.drop 3 := rfl

@[simp]
theorem walkIteOp_micros (w : Nat) (top : KExpr) (st : CState) :
    (walkIteOp w top st).micros = st.micros := rfl

@[simp]
theorem walkIteOp_muxes (w : Nat) (top : KExpr) (st : CState) :
    (walkIteOp w top st).muxes =
      addMux st.muxes top
        ⟨w, freshVect st.fresh w,
         (st.add_stack.drop (2 * w)).headD (DDT.auto 0),
         DDT.auto (st.fresh + w), (st.add_stack.drop w).take w,
         st.add_stack.take w⟩ := rfl

@[simp]
theorem walkIteOp_cache (w : Nat) (top : KExpr) (st : CState) :
    (walkIteOp w top st).cache = st.cache := rfl

end Compiler

namespace Compiler

@[simp]
theorem width_tbool : CType.tbool.width = 1 := rfl

@[simp]
theorem width_talg (w : Nat) : (CType.talg w).width = w := rfl

/-- A cache fragment whose keys are all small cannot contain a bigger
key. -/
theorem lookupK_none_of_small {α : Type} {cs : List (KExpr × α)} {e : KExpr}
    {n : Nat} (hsz : ∀ p ∈ cs, ksize p.1 ≤ n) (hlt : n < ksize e) :
    lookupK cs e = none := by
  rw [lookupK_eq_none_iff]
  intro hmem
  obtain ⟨p, hp, hfst⟩ := List.mem_map.mp hmem
  have h1 := hsz p hp
  rw [hfst] at h1
  omega

/-- A cache hit satisfies the one-step effect description. -/
theorem compile_hit_effect {uc : Bool} {w : Nat} {top e : KExpr}
    {st : CState} {t : CType} {u : CUnit} (hty : tyOf w e = some t)
    (hinv : Inv w st) (hl : lookupK st.cache e = some u)
    (hred : compile uc w top e st = cacheHit w e u st) :
    EffectConcl uc w top e st t := by
  obtain ⟨t2, ht2, hlen, hmux⟩ := hinv.1 (e, u) (lookupK_some_mem hl)
  have ht : t2 = t := by
    rw [hty] at ht2
    exact (Option.some.inj ht2).symm
  subst ht
  refine ⟨u.dds, u.micros, [], ?_, hlen, ?_, ?_, ?_, ?_, ?_, ?_⟩
  · rw [hred, cacheHit_add_stack]
  · rw [hred, cacheHit_type_stack, hty]
    rfl
  · rw [hred, cacheHit_micros]
  · rw [hred, cacheHit_cache, List.append_nil]
  · intro p hp
    simp at hp
  · rw [hred]
    exact ⟨by rw [cacheHit_cache]; exact hinv.1,
      by rw [cacheHit_muxes]; exact insertAllK_keys_nodup hinv.2⟩
  · intro habs
    rw [habs] at hl
    exact absurd hl (by simp)

/-- The one-step effect of `compile` on every well-typed expression and
well-formed state. -/
theorem compile_effect (uc : Bool) (w : Nat) (top : KExpr) :
    ∀ (e : KExpr) (st : CState) (t : CType),
      tyOf w e = some t → Inv w st → EffectConcl uc w top e st t := by
  intro e
  induction e with
  | kvar n =>
    intro st t hty hinv
    have ht : t = CType.talg w := by
      simp only [tyOf] at hty
      exact (Option.some.inj hty).symm
    subst ht
    cases hmatch : (if uc then lookupK st.cache (KExpr.kvar n) else none) with
    | some u =>
      have hl : lookupK st.cache (KExpr.kvar n) = some u := by
        cases uc
        · simp at hmatch
        · simpa using hmatch
      exact compile_hit_effect hty hinv hl (by simp only [compile, hmatch])
    | none =>
      have hred : compile uc w top (KExpr.kvar n) st =
          post_node_hook (KExpr.kvar n) (walkLeaf w n st) := by
        simp only [compile, hmatch]
      have htake : ((walkLeaf w n st).add_stack.take
          ((walkLeaf w n st).type_stack.headD CType.tbool).width) =
          encReg w n := by
        simp only [walkLeaf_add_stack, walkLeaf_type_stack, List.headD_cons,
          width_talg]
        exact take_append_len (length_encReg w n)
      have hcache : (compile uc w top (KExpr.kvar n) st).cache =
          insertK st.cache (KExpr.kvar n)
            ⟨encReg w n, st.micros, st.muxes⟩ := by
        rw [hred, post_node_hook_cache, htake]
        rfl
      by_cases habs : lookupK st.cache (KExpr.kvar n) = none
      · refine ⟨encReg w n, [], [(KExpr.kvar n,
          ⟨encReg w n, st.micros, st.muxes⟩)], ?_, by simp, ?_, ?_, ?_, ?_,
          ?_, ?_⟩
        · rw [hred]
          simp
        · rw [hred]
          simp
        · rw [hred]
          simp
        · rw [hcache, insertK_of_absent habs]
        · intro p hp
          simp only [List.mem_singleton] at hp
          subst hp
          exact Nat.le_refl _
        · constructor
          · rw [hcache, insertK_of_absent habs]
            intro p hp
            rcases List.mem_append.mp hp with h1 | h2
            · exact hinv.1 p h1
            · simp at h2
              rw [h2]
              exact ⟨CType.talg w, rfl, by simp, hinv.2⟩
          · rw [hred, post_node_hook_muxes, walkLeaf_muxes]
            exact hinv.2
        · intro h0
          rw [hcache, insertK_of_absent habs, lookupK_append_self habs]
          rw [hred]
          simp
      · have hco : (compile uc w top (KExpr.kvar n) st).cache = st.cache := by
          rw [hcache, insertK]
          cases hl2 : lookupK st.cache (KExpr.kvar n) with
          | none => exact absurd hl2 habs
          | some u2 => simp
        refine ⟨encReg w n, [], [], ?_, by simp, ?_, ?_, ?_, ?_, ?_, ?_⟩
        · rw [hred]
          simp
        · rw [hred]
          simp
        · rw [hred]
          simp
        · rw [hco, List.append_nil]
        · intro p hp
          simp at hp
        · constructor
          · rw [hco]
            exact hinv.1
          · rw [hred, post_node_hook_muxes, walkLeaf_muxes]
            exact hinv.2
        · intro h0
          exact absurd h0 habs
  | kadd a b iha ihb =>
    intro st t hty hinv
    obtain ⟨ht, hta, htb⟩ := tyOf_kadd hty
    subst ht
    cases hmatch : (if uc then lookupK st.cache (KExpr.kadd a b) else
        none) with
    | some u =>
      have hl : lookupK st.cache (KExpr.kadd a b) = some u := by
        cases uc
        · simp at hmatch
        · simpa using hmatch
      exact compile_hit_effect hty hinv hl (by simp only [compile, hmatch])
    | none =>
      obtain ⟨dA, mA, cA, haS, haL, haT, haM, haC, haSz, haI, _⟩ :=
        iha st _ hta hinv
      obtain ⟨dB, mB, cB, hbS, hbL, hbT, hbM, hbC, hbSz, hbI, _⟩ :=
        ihb (compile uc w top a st) _ htb haI
      have hred : compile uc w top (KExpr.kadd a b) st =
          post_node_hook (KExpr.kadd a b)
            (walkAddOp w (compile uc w top b (compile uc w top a st))) := by
        simp only [compile, hmatch]
      have hdrop : (compile uc w top b
          (compile uc w top a st)).add_stack.drop (2 * w) =
          st.add_stack := by
        rw [hbS, haS, ← List.append_assoc]
        exact drop_append_len (by
          rw [List.length_append, haL, hbL]
          simp [CType.width]
          ring)
      have hstack : (compile uc w top (KExpr.kadd a b) st).add_stack =
          freshVect (compile uc w top b (compile uc w top a st)).fresh w ++
            st.add_stack := by
        rw [hred, post_node_hook_add_stack, walkAddOp_add_stack, hdrop]
      have htypes : (compile uc w top (KExpr.kadd a b) st).type_stack =
          CType.talg w :: st.type_stack := by
        rw [hred, post_node_hook_type_stack, walkAddOp_type_stack, hbT, haT]
        rfl
      have hmicros : (compile uc w top (KExpr.kadd a b) st).micros =
          st.micros ++ (mA ++ mB ++
            [⟨false, opPLUS, w,
              freshVect (compile uc w top b
                (compile uc w top a st)).fresh w,
              ((compile uc w top b
                (compile uc w top a st)).add_stack.drop w).take w,
              (compile uc w top b
                (compile uc w top a st)).add_stack.take w⟩]) := by
        rw [hred, post_node_hook_micros, walkAddOp_micros, hbM, haM]
        simp
      have hm2 : (compile uc w top (KExpr.kadd a b) st).micros =
          (walkAddOp w (compile uc w top b
            (compile uc w top a st))).micros := by
        rw [hred, post_node_hook_micros]
      have hx2 : (compile uc w top (KExpr.kadd a b) st).muxes =
          (walkAddOp w (compile uc w top b
            (compile uc w top a st))).muxes := by
        rw [hred, post_node_hook_muxes]
      have hmuxes : (compile uc w top (KExpr.kadd a b) st).muxes =
          (compile uc w top b (compile uc w top a st)).muxes := by
        rw [hx2, walkAddOp_muxes]
      have htake : ((walkAddOp w (compile uc w top b
          (compile uc w top a st))).add_stack.take
          ((walkAddOp w (compile uc w top b
            (compile uc w top a st))).type_stack.headD CType.tbool).width) =
          freshVect (compile uc w top b (compile uc w top a st)).fresh w := by
        simp only [walkAddOp_add_stack, walkAddOp_type_stack,
          List.headD_cons, width_talg]
        rw [hdrop]
        exact take_append_len (length_freshVect _ w)
      have hcache : (compile uc w top (KExpr.kadd a b) st).cache =
          insertK ((st.cache ++ cA) ++ cB) (KExpr.kadd a b)
            ⟨freshVect (compile uc w top b
              (compile uc w top a st)).fresh w,
             (walkAddOp w (compile uc w top b
               (compile uc w top a st))).micros,
             (walkAddOp w (compile uc w top b
               (compile uc w top a st))).muxes⟩ := by
        rw [hred, post_node_hook_cache, htake, walkAddOp_cache, hbC, haC]
      have hsmall : ∀ p ∈ cA ++ cB, ksize p.1 ≤ ksize a + ksize b := by
        intro p hp
        rcases List.mem_append.mp hp with h1 | h2
        · have := haSz p h1
          omega
        · have := hbSz p h2
          omega
      have hklt : ksize a + ksize b < ksize (KExpr.kadd a b) := by
        simp [ksize]
      have hchild : lookupK (cA ++ cB) (KExpr.kadd a b) = none :=
        lookupK_none_of_small hsmall hklt
      have hWFmem : ∀ p ∈ (st.cache ++ cA) ++ cB,
          ∃ t2, tyOf w p.1 = some t2 ∧ p.2.dds.length = t2.width ∧
            (p.2.muxes.map Prod.fst).Nodup := by
        intro p hp
        rcases List.mem_append.mp hp with h1 | h2
        · rcases List.mem_append.mp h1 with h3 | h4
          · exact hinv.1 p h3
          · exact haI.1 p (by rw [haC]; exact List.mem_append_right _ h4)
        · exact hbI.1 p
            (by rw [hbC, haC]; exact List.mem_append_right _ h2)
      by_cases habs : lookupK ((st.cache ++ cA) ++ cB)
          (KExpr.kadd a b) = none
      · refine ⟨freshVect (compile uc w top b
          (compile uc w top a st)).fresh w, _, cA ++ cB ++
          [(KExpr.kadd a b,
            ⟨freshVect (compile uc w top b
              (compile uc w top a st)).fresh w,
             (walkAddOp w (compile uc w top b
               (compile uc w top a st))).micros,
             (walkAddOp w (compile uc w top b
               (compile uc w top a st))).muxes⟩)],
          hstack, by simp, htypes, hmicros, ?_, ?_, ?_, ?_⟩
        · rw [hcache, insertK_of_absent habs]
          simp
        · intro p hp
          rcases List.mem_append.mp hp with h1 | h2
          · have := hsmall p h1
            omega
          · simp only [List.mem_singleton] at h2
            subst h2
            exact Nat.le_refl _
        · constructor
          · rw [hcache, insertK_of_absent habs]
            intro p hp
            rcases List.mem_append.mp hp with h1 | h2
            · exact hWFmem p h1
            · simp only [List.mem_singleton] at h2
              subst h2
              refine ⟨CType.talg w, hty, by simp, ?_⟩
              rw [walkAddOp_muxes]
              exact hbI.2
          · rw [hmuxes]
            exact hbI.2
        · intro h0
          rw [hm2, hx2, hcache, insertK_of_absent habs,
            lookupK_append_self habs]
      · have hpresent : ∃ u2, lookupK ((st.cache ++ cA) ++ cB)
            (KExpr.kadd a b) = some u2 := by
          cases hl2 : lookupK ((st.cache ++ cA) ++ cB) (KExpr.kadd a b) with
          | none => exact absurd hl2 habs
          | some u2 => exact ⟨u2, rfl⟩
        obtain ⟨u2, hu2⟩ := hpresent
        have hco : (compile uc w top (KExpr.kadd a b) st).cache =
            (st.cache ++ cA) ++ cB := by
          rw [hcache, insertK, hu2]
          simp
        refine ⟨freshVect (compile uc w top b
          (compile uc w top a st)).fresh w, _, cA ++ cB,
          hstack, by simp, htypes, hmicros, ?_, ?_, ?_, ?_⟩
        · rw [hco]
          simp
        · intro p hp
          have := hsmall p hp
          omega
        · constructor
          · rw [hco]
            exact hWFmem
          · rw [hmuxes]
            exact hbI.2
        · intro h0
          have hc2 : lookupK ((st.cache ++ cA) ++ cB) (KExpr.kadd a b) =
              none := by
            rw [List.append_assoc, lookupK_append _ h0]
            exact hchild
          exact absurd hc2 habs
  | klt a b iha ihb =>
    intro st t hty hinv
    obtain ⟨ht, hta, htb⟩ := tyOf_klt hty
    subst ht
    cases hmatch : (if uc then lookupK st.cache (KExpr.klt a b) else
        none) with
    | some u =>
      have hl : lookupK st.cache (KExpr.klt a b) = some u := by
        cases uc
        · simp at hmatch
        · simpa using hmatch
      exact compile_hit_effect hty hinv hl (by simp only [compile, hmatch])
    | none =>
      obtain ⟨dA, mA, cA, haS, haL, haT, haM, haC, haSz, haI, _⟩ :=
        iha st _ hta hinv
      obtain ⟨dB, mB, cB, hbS, hbL, hbT, hbM, hbC, hbSz, hbI, _⟩ :=
        ihb (compile uc w top a st) _ htb haI
      have hred : compile uc w top (KExpr.klt a b) st =
          post_node_hook (KExpr.klt a b)
            (walkLtOp w (compile uc w top b (compile uc w top a st))) := by
        simp only [compile, hmatch]
      have hdrop : (compile uc w top b
          (compile uc w top a st)).add_stack.drop (2 * w) =
          st.add_stack := by
        rw [hbS, haS, ← List.append_assoc]
        exact drop_append_len (by
          rw [List.length_append, haL, hbL]
          simp [CType.width]
          ring)
      have hstack : (compile uc w top (KExpr.klt a b) st).add_stack =
          [DDT.auto (compile uc w top b
            (compile uc w top a st)).fresh] ++ st.add_stack := by
        rw [hred, post_node_hook_add_stack, walkLtOp_add_stack, hdrop]
      have htypes : (compile uc w top (KExpr.klt a b) st).type_stack =
          CType.tbool :: st.type_stack := by
        rw [hred, post_node_hook_type_stack, walkLtOp_type_stack, hbT, haT]
        rfl
      have hmicros : (compile uc w top (KExpr.klt a b) st).micros =
          st.micros ++ (mA ++ mB ++
            [⟨false, opLTtag, w,
              [DDT.auto (compile uc w top b
                (compile uc w top a st)).fresh],
              ((compile uc w top b
                (compile uc w top a st)).add_stack.drop w).take w,
              (compile uc w top b
                (compile uc w top a st)).add_stack.take w⟩]) := by
        rw [hred, post_node_hook_micros, walkLtOp_micros, hbM, haM]
        simp
      have hm2 : (compile uc w top (KExpr.klt a b) st).micros =
          (walkLtOp w (compile uc w top b
            (compile uc w top a st))).micros := by
        rw [hred, post_node_hook_micros]
      have hx2 : (compile uc w top (KExpr.klt a b) st).muxes =
          (walkLtOp w (compile uc w top b
            (compile uc w top a st))).muxes := by
        rw [hred, post_node_hook_muxes]
      have hmuxes : (compile uc w top (KExpr.klt a b) st).muxes =
          (compile uc w top b (compile uc w top a st)).muxes := by
        rw [hx2, walkLtOp_muxes]
      have htake : ((walkLtOp w (compile uc w top b
          (compile uc w top a st))).add_stack.take
          ((walkLtOp w (compile uc w top b
            (compile uc w top a st))).type_stack.headD CType.tbool).width) =
          [DDT.auto (compile uc w top b
            (compile uc w top a st)).fresh] := by
        simp only [walkLtOp_add_stack, walkLtOp_type_stack,
          List.headD_cons, width_tbool]
        rw [hdrop]
        exact take_append_len (by simp)
      have hcache : (compile uc w top (KExpr.klt a b) st).cache =
          insertK ((st.cache ++ cA) ++ cB) (KExpr.klt a b)
            ⟨[DDT.auto (compile uc w top b
              (compile uc w top a st)).fresh],
             (walkLtOp w (compile uc w top b
               (compile uc w top a st))).micros,
             (walkLtOp w (compile uc w top b
               (compile uc w top a st))).muxes⟩ := by
        rw [hred, post_node_hook_cache, htake, walkLtOp_cache, hbC, haC]
      have hsmall : ∀ p ∈ cA ++ cB, ksize p.1 ≤ ksize a + ksize b := by
        intro p hp
        rcases List.mem_append.mp hp with h1 | h2
        · have := haSz p h1
          omega
        · have := hbSz p h2
          omega
      have hklt : ksize a + ksize b < ksize (KExpr.klt a b) := by
        simp [ksize]
      have hchild : lookupK (cA ++ cB) (KExpr.klt a b) = none :=
        lookupK_none_of_small hsmall hklt
      have hWFmem : ∀ p ∈ (st.cache ++ cA) ++ cB,
          ∃ t2, tyOf w p.1 = some t2 ∧ p.2.dds.length = t2.width ∧
            (p.2.muxes.map Prod.fst).Nodup := by
        intro p hp
        rcases List.mem_append.mp hp with h1 | h2
        · rcases List.mem_append.mp h1 with h3 | h4
          · exact hinv.1 p h3
          · exact haI.1 p (by rw [haC]; exact List.mem_append_right _ h4)
        · exact hbI.1 p
            (by rw [hbC, haC]; exact List.mem_append_right _ h2)
      by_cases habs : lookupK ((st.cache ++ cA) ++ cB)
          (KExpr.klt a b) = none
      · refine ⟨[DDT.auto (compile uc w top b
          (compile uc w top a st)).fresh], _, cA ++ cB ++
          [(KExpr.klt a b,
            ⟨[DDT.auto (compile uc w top b
              (compile uc w top a st)).fresh],
             (walkLtOp w (compile uc w top b
               (compile uc w top a st))).micros,
             (walkLtOp w (compile uc w top b
               (compile uc w top a st))).muxes⟩)],
          hstack, by simp, htypes, hmicros, ?_, ?_, ?_, ?_⟩
        · rw [hcache, insertK_of_absent habs]
          simp
        · intro p hp
          rcases List.mem_append.mp hp with h1 | h2
          · have := hsmall p h1
            omega
          · simp only [List.mem_singleton] at h2
            subst h2
            exact Nat.le_refl _
        · constructor
          · rw [hcache, insertK_of_absent habs]
            intro p hp
            rcases List.mem_append.mp hp with h1 | h2
            · exact hWFmem p h1
            · simp only [List.mem_singleton] at h2
              subst h2
              refine ⟨CType.tbool, hty, by simp, ?_⟩
              rw [walkLtOp_muxes]
              exact hbI.2
          · rw [hmuxes]
            exact hbI.2
        · intro h0
          rw [hm2, hx2, hcache, insertK_of_absent habs,
            lookupK_append_self habs]
      · have hpresent : ∃ u2, lookupK ((st.cache ++ cA) ++ cB)
            (KExpr.klt a b) = some u2 := by
          cases hl2 : lookupK ((st.cache ++ cA) ++ cB) (KExpr.klt a b) with
          | none => exact absurd hl2 habs
          | some u2 => exact ⟨u2, rfl⟩
        obtain ⟨u2, hu2⟩ := hpresent
        have hco : (compile uc w top (KExpr.klt a b) st).cache =
            (st.cache ++ cA) ++ cB := by
          rw [hcache, insertK, hu2]
          simp
        refine ⟨[DDT.auto (compile uc w top b
          (compile uc w top a st)).fresh], _, cA ++ cB,
          hstack, by simp, htypes, hmicros, ?_, ?_, ?_, ?_⟩
        · rw [hco]
          simp
        · intro p hp
          have := hsmall p hp
          omega
        · constructor
          · rw [hco]
            exact hWFmem
          · rw [hmuxes]
            exact hbI.2
        · intro h0
          have hc2 : lookupK ((st.cache ++ cA) ++ cB) (KExpr.klt a b) =
              none := by
            rw [List.append_assoc, lookupK_append _ h0]
            exact hchild
          exact absurd hc2 habs
  | kand a b iha ihb =>
    intro st t hty hinv
    obtain ⟨ht, hta, htb⟩ := tyOf_kand hty
    subst ht
    cases hmatch : (if uc then lookupK st.cache (KExpr.kand a b) else
        none) with
    | some u =>
      have hl : lookupK st.cache (KExpr.kand a b) = some u := by
        cases uc
        · simp at hmatch
        · simpa using hmatch
      exact compile_hit_effect hty hinv hl (by simp only [compile, hmatch])
    | none =>
      obtain ⟨dA, mA, cA, haS, haL, haT, haM, haC, haSz, haI, _⟩ :=
        iha st _ hta hinv
      obtain ⟨dB, mB, cB, hbS, hbL, hbT, hbM, hbC, hbSz, hbI, _⟩ :=
        ihb (compile uc w top a st) _ htb haI
      have hred : compile uc w top (KExpr.kand a b) st =
          post_node_hook (KExpr.kand a b)
            (walkAndOp (compile uc w top b (compile uc w top a st))) := by
        simp only [compile, hmatch]
      have hdrop : (compile uc w top b
          (compile uc w top a st)).add_stack.drop 2 = st.add_stack := by
        rw [hbS, haS, ← List.append_assoc]
        exact drop_append_len (by
          rw [List.length_append, haL, hbL]
          simp [CType.width])
      have hstack : (compile uc w top (KExpr.kand a b) st).add_stack =
          [DDT.dtimes (((compile uc w top b
              (compile uc w top a st)).add_stack.drop 1).headD (DDT.auto 0))
            ((compile uc w top b
              (compile uc w top a st)).add_stack.headD (DDT.auto 0))] ++
            st.add_stack := by
        rw [hred, post_node_hook_add_stack, walkAndOp_add_stack, hdrop]
        rfl
      have htypes : (compile uc w top (KExpr.kand a b) st).type_stack =
          CType.tbool :: st.type_stack := by
        rw [hred, post_node_hook_type_stack, walkAndOp_type_stack, hbT, haT]
        rfl
      have hmicros : (compile uc w top (KExpr.kand a b) st).micros =
          st.micros ++ (mA ++ mB) := by
        rw [hred, post_node_hook_micros, walkAndOp_micros, hbM, haM]
        simp
      have hm2 : (compile uc w top (KExpr.kand a b) st).micros =
          (walkAndOp (compile uc w top b
            (compile uc w top a st))).micros := by
        rw [hred, post_node_hook_micros]
      have hx2 : (compile uc w top (KExpr.kand a b) st).muxes =
          (walkAndOp (compile uc w top b
            (compile uc w top a st))).muxes := by
        rw [hred, post_node_hook_muxes]
      have hmuxes : (compile uc w top (KExpr.kand a b) st).muxes =
          (compile uc w top b (compile uc w top a st)).muxes := by
        rw [hx2, walkAndOp_muxes]
      have htake : ((walkAndOp (compile uc w top b
          (compile uc w top a st))).add_stack.take
          ((walkAndOp (compile uc w top b
            (compile uc w top a st))).type_stack.headD CType.tbool).width) =
          [DDT.dtimes (((compile uc w top b
              (compile uc w top a st)).add_stack.drop 1).headD (DDT.auto 0))
            ((compile uc w top b
              (compile uc w top a st)).add_stack.headD (DDT.auto 0))] := by
        simp [walkAndOp_add_stack, walkAndOp_type_stack]
      have hcache : (compile uc w top (KExpr.kand a b) st).cache =
          insertK ((st.cache ++ cA) ++ cB) (KExpr.kand a b)
            ⟨[DDT.dtimes (((compile uc w top b
                (compile uc w top a st)).add_stack.drop 1).headD
                  (DDT.auto 0))
              ((compile uc w top b
                (compile uc w top a st)).add_stack.headD (DDT.auto 0))],
             (walkAndOp (compile uc w top b
               (compile uc w top a st))).micros,
             (walkAndOp (compile uc w top b
               (compile uc w top a st))).muxes⟩ := by
        rw [hred, post_node_hook_cache, htake, walkAndOp_cache, hbC, haC]
      have hsmall : ∀ p ∈ cA ++ cB, ksize p.1 ≤ ksize a + ksize b := by
        intro p hp
        rcases List.mem_append.mp hp with h1 | h2
        · have := haSz p h1
          omega
        · have := hbSz p h2
          omega
      have hklt : ksize a + ksize b < ksize (KExpr.kand a b) := by
        simp [ksize]
      have hchild : lookupK (cA ++ cB) (KExpr.kand a b) = none :=
        lookupK_none_of_small hsmall hklt
      have hWFmem : ∀ p ∈ (st.cache ++ cA) ++ cB,
          ∃ t2, tyOf w p.1 = some t2 ∧ p.2.dds.length = t2.width ∧
            (p.2.muxes.map Prod.fst).Nodup := by
        intro p hp
        rcases List.mem_append.mp hp with h1 | h2
        · rcases List.mem_append.mp h1 with h3 | h4
          · exact hinv.1 p h3
          · exact haI.1 p (by rw [haC]; exact List.mem_append_right _ h4)
        · exact hbI.1 p
            (by rw [hbC, haC]; exact List.mem_append_right _ h2)
      by_cases habs : lookupK ((st.cache ++ cA) ++ cB)
          (KExpr.kand a b) = none
      · refine ⟨[DDT.dtimes (((compile uc w top b
            (compile uc w top a st)).add_stack.drop 1).headD (DDT.auto 0))
            ((compile uc w top b
              (compile uc w top a st)).add_stack.headD (DDT.auto 0))], _,
          cA ++ cB ++
          [(KExpr.kand a b,
            ⟨[DDT.dtimes (((compile uc w top b
                (compile uc w top a st)).add_stack.drop 1).headD
                  (DDT.auto 0))
              ((compile uc w top b
                (compile uc w top a st)).add_stack.headD (DDT.auto 0))],
             (walkAndOp (compile uc w top b
               (compile uc w top a st))).micros,
             (walkAndOp (compile uc w top b
               (compile uc w top a st))).muxes⟩)],
          hstack, by simp, htypes, hmicros, ?_, ?_, ?_, ?_⟩
        · rw [hcache, insertK_of_absent habs]
          simp
        · intro p hp
          rcases List.mem_append.mp hp with h1 | h2
          · have := hsmall p h1
            omega
          · simp only [List.mem_singleton] at h2
            subst h2
            exact Nat.le_refl _
        · constructor
          · rw [hcache, insertK_of_absent habs]
            intro p hp
            rcases List.mem_append.mp hp with h1 | h2
            · exact hWFmem p h1
            · simp only [List.mem_singleton] at h2
              subst h2
              refine ⟨CType.tbool, hty, by simp, ?_⟩
              rw [walkAndOp_muxes]
              exact hbI.2
          · rw [hmuxes]
            exact hbI.2
        · intro h0
          rw [hm2, hx2, hcache, insertK_of_absent habs,
            lookupK_append_self habs]
      · have hpresent : ∃ u2, lookupK ((st.cache ++ cA) ++ cB)
            (KExpr.kand a b) = some u2 := by
          cases hl2 : lookupK ((st.cache ++ cA) ++ cB) (KExpr.kand a b) with
          | none => exact absurd hl2 habs
          | some u2 => exact ⟨u2, rfl⟩
        obtain ⟨u2, hu2⟩ := hpresent
        have hco : (compile uc w top (KExpr.kand a b) st).cache =
            (st.cache ++ cA) ++ cB := by
          rw [hcache, insertK, hu2]
          simp
        refine ⟨[DDT.dtimes (((compile uc w top b
            (compile uc w top a st)).add_stack.drop 1).headD (DDT.auto 0))
            ((compile uc w top b
              (compile uc w top a st)).add_stack.headD (DDT.auto 0))], _,
          cA ++ cB, hstack, by simp, htypes, hmicros, ?_, ?_, ?_, ?_⟩
        · rw [hco]
          simp
        · intro p hp
          have := hsmall p hp
          omega
        · constructor
          · rw [hco]
            exact hWFmem
          · rw [hmuxes]
            exact hbI.2
        · intro h0
          have hc2 : lookupK ((st.cache ++ cA) ++ cB) (KExpr.kand a b) =
              none := by
            rw [List.append_assoc, lookupK_append _ h0]
            exact hchild
          exact absurd hc2 habs
  | kite c a b ihc iha ihb =>
    intro st t hty hinv
    obtain ⟨ht, htc, hta, htb⟩ := tyOf_kite hty
    subst ht
    cases hmatch : (if uc then lookupK st.cache (KExpr.kite c a b) else
        none) with
    | some u =>
      have hl : lookupK st.cache (KExpr.kite c a b) = some u := by
        cases uc
        · simp at hmatch
        · simpa using hmatch
      exact compile_hit_effect hty hinv hl (by simp only [compile, hmatch])
    | none =>
      obtain ⟨dC, mC, cC, hcS, hcL, hcT, hcM, hcC, hcSz, hcI, _⟩ :=
        ihc st _ htc hinv
      obtain ⟨dA, mA, cA, haS, haL, haT, haM, haC, haSz, haI, _⟩ :=
        iha (compile uc w top c st) _ hta hcI
      obtain ⟨dB, mB, cB, hbS, hbL, hbT, hbM, hbC, hbSz, hbI, _⟩ :=
        ihb (compile uc w top a (compile uc w top c st)) _ htb haI
      have hred : compile uc w top (KExpr.kite c a b) st =
          post_node_hook (KExpr.kite c a b)
            (walkIteOp w top (compile uc w top b
              (compile uc w top a (compile uc w top c st)))) := by
        simp only [compile, hmatch]
      have hdrop : (compile uc w top b (compile uc w top a
          (compile uc w top c st))).add_stack.drop (2 * w + 1) =
          st.add_stack := by
        rw [hbS, haS, hcS, ← List.append_assoc, ← List.append_assoc]
        exact drop_append_len (by
          rw [List.length_append, List.length_append, hcL, haL, hbL]
          simp [CType.width]
          ring)
      have hstack : (compile uc w top (KExpr.kite c a b) st).add_stack =
          freshVect (compile uc w top b (compile uc w top a
            (compile uc w top c st))).fresh w ++ st.add_stack := by
        rw [hred, post_node_hook_add_stack, walkIteOp_add_stack, hdrop]
      have htypes : (compile uc w top (KExpr.kite c a b) st).type_stack =
          CType.talg w :: st.type_stack := by
        rw [hred, post_node_hook_type_stack, walkIteOp_type_stack, hbT, haT,
          hcT]
        rfl
      have hmicros : (compile uc w top (KExpr.kite c a b) st).micros =
          st.micros ++ (mC ++ mA ++ mB) := by
        rw [hred, post_node_hook_micros, walkIteOp_micros, hbM, haM, hcM]
        simp
      have hm2 : (compile uc w top (KExpr.kite c a b) st).micros =
          (walkIteOp w top (compile uc w top b (compile uc w top a
            (compile uc w top c st)))).micros := by
        rw [hred, post_node_hook_micros]
      have hx2 : (compile uc w top (KExpr.kite c a b) st).muxes =
          (walkIteOp w top (compile uc w top b (compile uc w top a
            (compile uc w top c st)))).muxes := by
        rw [hred, post_node_hook_muxes]
      have htake : ((walkIteOp w top (compile uc w top b
          (compile uc w top a (compile uc w top c st)))).add_stack.take
          ((walkIteOp w top (compile uc w top b (compile uc w top a
            (compile uc w top c st)))).type_stack.headD
              CType.tbool).width) =
          freshVect (compile uc w top b (compile uc w top a
            (compile uc w top c st))).fresh w := by
        simp only [walkIteOp_add_stack, walkIteOp_type_stack,
          List.headD_cons, width_talg]
        rw [hdrop]
        exact take_append_len (length_freshVect _ w)
      have hcache : (compile uc w top (KExpr.kite c a b) st).cache =
          insertK (((st.cache ++ cC) ++ cA) ++ cB) (KExpr.kite c a b)
            ⟨freshVect (compile uc w top b (compile uc w top a
              (compile uc w top c st))).fresh w,
             (walkIteOp w top (compile uc w top b (compile uc w top a
               (compile uc w top c st)))).micros,
             (walkIteOp w top (compile uc w top b (compile uc w top a
               (compile uc w top c st)))).muxes⟩ := by
        rw [hred, post_node_hook_cache, htake, walkIteOp_cache, hbC, haC,
          hcC]
      have hsmall : ∀ p ∈ cC ++ cA ++ cB,
          ksize p.1 ≤ ksize c + ksize a + ksize b := by
        intro p hp
        rcases List.mem_append.mp hp with h1 | h2
        · rcases List.mem_append.mp h1 with h3 | h4
          · have := hcSz p h3
            omega
          · have := haSz p h4
            omega
        · have := hbSz p h2
          omega
      have hklt : ksize c + ksize a + ksize b < ksize (KExpr.kite c a b) := by
        simp [ksize]
      have hchild : lookupK (cC ++ cA ++ cB) (KExpr.kite c a b) = none :=
        lookupK_none_of_small hsmall hklt
      have hWFmem : ∀ p ∈ ((st.cache ++ cC) ++ cA) ++ cB,
          ∃ t2, tyOf w p.1 = some t2 ∧ p.2.dds.length = t2.width ∧
            (p.2.muxes.map Prod.fst).Nodup := by
        intro p hp
        rcases List.mem_append.mp hp with h1 | h2
        · rcases List.mem_append.mp h1 with h3 | h4
          · rcases List.mem_append.mp h3 with h5 | h6
            · exact hinv.1 p h5
            · exact hcI.1 p (by rw [hcC]; exact List.mem_append_right _ h6)
          · exact haI.1 p
              (by rw [haC, hcC]; exact List.mem_append_right _ h4)
        · exact hbI.1 p
            (by rw [hbC, haC, hcC]; exact List.mem_append_right _ h2)
      have hmuxnodup : (((walkIteOp w top (compile uc w top b
          (compile uc w top a (compile uc w top c st)))).muxes).map
            Prod.fst).Nodup := by
        rw [walkIteOp_muxes]
        exact addMux_keys_nodup hbI.2
      by_cases habs : lookupK (((st.cache ++ cC) ++ cA) ++ cB)
          (KExpr.kite c a b) = none
      · refine ⟨freshVect (compile uc w top b (compile uc w top a
          (compile uc w top c st))).fresh w, _, cC ++ cA ++ cB ++
          [(KExpr.kite c a b,
            ⟨freshVect (compile uc w top b (compile uc w top a
              (compile uc w top c st))).fresh w,
             (walkIteOp w top (compile uc w top b (compile uc w top a
               (compile uc w top c st)))).micros,
             (walkIteOp w top (compile uc w top b (compile uc w top a
               (compile uc w top c st)))).muxes⟩)],
          hstack, by simp, htypes, hmicros, ?_, ?_, ?_, ?_⟩
        · rw [hcache, insertK_of_absent habs]
          simp
        · intro p hp
          rcases List.mem_append.mp hp with h1 | h2
          · have := hsmall p h1
            omega
          · simp only [List.mem_singleton] at h2
            subst h2
            exact Nat.le_refl _
        · constructor
          · rw [hcache, insertK_of_absent habs]
            intro p hp
            rcases List.mem_append.mp hp with h1 | h2
            · exact hWFmem p h1
            · simp only [List.mem_singleton] at h2
              subst h2
              exact ⟨CType.talg w, hty, by simp, hmuxnodup⟩
          · rw [hx2]
            exact hmuxnodup
        · intro h0
          rw [hm2, hx2, hcache, insertK_of_absent habs,
            lookupK_append_self habs]
      · have hpresent : ∃ u2, lookupK (((st.cache ++ cC) ++ cA) ++ cB)
            (KExpr.kite c a b) = some u2 := by
          cases hl2 : lookupK (((st.cache ++ cC) ++ cA) ++ cB)
              (KExpr.kite c a b) with
          | none => exact absurd hl2 habs
          | some u2 => exact ⟨u2, rfl⟩
        obtain ⟨u2, hu2⟩ := hpresent
        have hco : (compile uc w top (KExpr.kite c a b) st).cache =
            ((st.cache ++ cC) ++ cA) ++ cB := by
          rw [hcache, insertK, hu2]
          simp
        refine ⟨freshVect (compile uc w top b (compile uc w top a
          (compile uc w top c st))).fresh w, _, cC ++ cA ++ cB,
          hstack, by simp, htypes, hmicros, ?_, ?_, ?_, ?_⟩
        · rw [hco]
          simp
        · intro p hp
          have := hsmall p hp
          omega
        · constructor
          · rw [hco]
            exact hWFmem
          · rw [hx2]
            exact hmuxnodup
        · intro h0
          have hc2 : lookupK (((st.cache ++ cC) ++ cA) ++ cB)
              (KExpr.kite c a b) = none := by
            rw [List.append_assoc, List.append_assoc, ← List.append_assoc
              cC cA cB, lookupK_append _ h0]
            exact hchild
          exact absurd hc2 habs

end Compiler

/-- Claim C1, counterexample: compile `e = (x + y) < y` as the toplevel of
its own run (`process`), then compile `e` again in the resulting state.
The cache hit replays the memoized snapshot — which is the whole microcode
buffer at caching time — so the working buffer ends up holding the two
descriptors of `e` twice (`¬ Nodup`); a fresh (from-cold, cache-disabled)
compilation at the same key instead appends two new descriptors with
freshly allocated result DDs, yielding four pairwise distinct descriptors.
The two side tables differ, refuting the claimed equality of hit and
from-cold compilation. -/
theorem c1_counterexample :
    (Compiler.compile true 1 Compiler.ltExpr Compiler.ltExpr
        (Compiler.process 1 Compiler.ltExpr)).micros ≠
      (Compiler.compile false 1 Compiler.ltExpr Compiler.ltExpr
        (Compiler.process 1 Compiler.ltExpr)).micros ∧
    ¬ (Compiler.compile true 1 Compiler.ltExpr Compiler.ltExpr
        (Compiler.process 1 Compiler.ltExpr)).micros.Nodup ∧
    (Compiler.compile false 1 Compiler.ltExpr Compiler.ltExpr
        (Compiler.process 1 Compiler.ltExpr)).micros.Nodup := by
  refine ⟨by decide, by decide, by decide⟩

/-- Claim C1 (amended): on a hit for key `(ctx, e, time)`, `cache_miss`
re-pushes the cached DDVector in reverse order (reproducing the original
stack effect exactly), pushes the resolved type, appends the cached
microcode snapshot — the whole buffer memoized by `post_node_hook`, not
just the key's own descriptors — and inserts the cached mux entries only
for toplevel keys not already present (`std::map::insert`).  Consequently
a hit reproduces the observable effect of a fresh compilation exactly when
the entry was cached with empty side buffers, as when the key was compiled
as the toplevel of its own run: replaying such an entry from fresh working
buffers yields the very ADD stack, type stack, microcode buffer and mux
map of the original compilation. -/
theorem c1_cache_hit_amended (w : Nat) (top e : Compiler.KExpr)
    (t : Compiler.CType) (hty : Compiler.tyOf w e = some t) :
    (∀ (st : Compiler.CState) (u : Compiler.CUnit),
      Compiler.lookupK st.cache e = some u →
      Compiler.compile true w top e st =
        { st with
          add_stack := u.dds ++ st.add_stack
          type_stack := t :: st.type_stack
          micros := st.micros ++ u.micros
          muxes := Compiler.insertAllK st.muxes u.muxes }) ∧
    ((Compiler.hitReplay w e).add_stack =
        (Compiler.process w e).add_stack ∧
      (Compiler.hitReplay w e).type_stack =
        (Compiler.process w e).type_stack ∧
      (Compiler.hitReplay w e).micros = (Compiler.process w e).micros ∧
      (Compiler.hitReplay w e).muxes = (Compiler.process w e).muxes) := by
  have hget : (Compiler.tyOf w e).getD Compiler.CType.tbool = t := by
    rw [hty]
    rfl
  have hmechAll : ∀ (tp : Compiler.KExpr) (st : Compiler.CState)
      (u : Compiler.CUnit),
      Compiler.lookupK st.cache e = some u →
      Compiler.compile true w tp e st =
        { st with
          add_stack := u.dds ++ st.add_stack
          type_stack := t :: st.type_stack
          micros := st.micros ++ u.micros
          muxes := Compiler.insertAllK st.muxes u.muxes } := by
    intro tp st u hu
    cases e <;>
      simp [Compiler.compile, hu, Compiler.cacheHit, ← hget]
  refine ⟨hmechAll top, ?_⟩
  have hInv0 : Compiler.Inv w Compiler.cleanState := by
    constructor
    · intro p hp
      simp [Compiler.cleanState] at hp
    · simp [Compiler.cleanState]
  obtain ⟨dnew, ms, cs, h1, h2, h3, h4, h5, h6, h7, h8⟩ :=
    Compiler.compile_effect true w e e Compiler.cleanState t hty hInv0
  have hentry := h8 rfl
  have heq := hmechAll e
    { Compiler.cleanState with
      cache := (Compiler.compile true w e e Compiler.cleanState).cache
      fresh := (Compiler.compile true w e e Compiler.cleanState).fresh }
    ⟨dnew, (Compiler.compile true w e e Compiler.cleanState).micros,
      (Compiler.compile true w e e Compiler.cleanState).muxes⟩ hentry
  have hrepl : Compiler.hitReplay w e =
      Compiler.compile true w e e
        { Compiler.cleanState with
          cache := (Compiler.compile true w e e Compiler.cleanState).cache
          fresh := (Compiler.compile true w e e Compiler.cleanState).fresh } :=
    rfl
  simp only [Compiler.process]
  rw [hrepl, heq]
  exact ⟨by rw [h1], by rw [h3], rfl, Compiler.insertAllK_nil h7.2⟩

/-- Witness for C1: the amended statement instantiated at the concrete key
`(x + y) < y` of the counterexample, with its typing hypothesis
discharged. -/
theorem c1_cache_hit_amended_witness :
    Compiler.tyOf 1 Compiler.ltExpr = some Compiler.CType.tbool ∧
    ((∀ (st : Compiler.CState) (u : Compiler.CUnit),
      Compiler.lookupK st.cache Compiler.ltExpr = some u →
      Compiler.compile true 1 Compiler.ltExpr Compiler.ltExpr st =
        { st with
          add_stack := u.dds ++ st.add_stack
          type_stack := Compiler.CType.tbool :: st.type_stack
          micros := st.micros ++ u.micros
          muxes := Compiler.insertAllK st.muxes u.muxes }) ∧
    ((Compiler.hitReplay 1 Compiler.ltExpr).add_stack =
        (Compiler.process 1 Compiler.ltExpr).add_stack ∧
      (Compiler.hitReplay 1 Compiler.ltExpr).type_stack =
        (Compiler.process 1 Compiler.ltExpr).type_stack ∧
      (Compiler.hitReplay 1 Compiler.ltExpr).micros =
        (Compiler.process 1 Compiler.ltExpr).micros ∧
      (Compiler.hitReplay 1 Compiler.ltExpr).muxes =
        (Compiler.process 1 Compiler.ltExpr).muxes)) :=
  ⟨by decide,
    c1_cache_hit_amended 1 Compiler.ltExpr Compiler.ltExpr
      Compiler.CType.tbool (by decide)⟩
